import Mathlib

/-!
# Verification of the jsonsrt core (parser, formatter, sorters)

Shallow embedding of the program's core modules:

* `node.rs`   — the `Node` tree (`Object`, `Array`, `Value`)
* `parse.rs`  — the tolerant nom-based recursive-descent parser
* `format.rs` — the canonical two-space pretty-printer
* `sort.rs`   — `sort_by_name`, `sort_by_value`, `find_value`, `unquote`

Strings are modelled as `List Char` (`Str`); Rust's byte-wise `str`
ordering coincides with code-point lexicographic ordering on valid UTF-8,
so `cmpChars` below is a faithful model of `str::cmp`.  Rust's stable
`slice::sort_by` / `sort_by_key` is modelled by the stable insertion sort
`sortBy` below.
-/

set_option maxHeartbeats 1000000

namespace Jsonsrt

abbrev Str := List Char

/-- `char::is_whitespace` — the Unicode `White_Space` property, as used by
`parse.rs` in `space()` and `stringish()`. -/
def rustWs (c : Char) : Bool :=
  c.val = 0x9 || c.val = 0xA || c.val = 0xB || c.val = 0xC || c.val = 0xD ||
  c.val = 0x20 || c.val = 0x85 || c.val = 0xA0 || c.val = 0x1680 ||
  (0x2000 ≤ c.val && c.val ≤ 0x200A) ||
  c.val = 0x2028 || c.val = 0x2029 || c.val = 0x202F || c.val = 0x205F ||
  c.val = 0x3000

/-- The structural delimiter set `",:{}[]".contains(x)` from `stringish()`. -/
def isDelim (c : Char) : Bool :=
  c = ',' || c = ':' || c = '{' || c = '}' || c = '[' || c = ']'

/-- Lexicographic comparison of strings, modelling Rust `str::cmp`
(byte-lexicographic, which equals code-point lexicographic for UTF-8). -/
def cmpChars : Str → Str → Ordering
  | [], [] => .eq
  | [], _ :: _ => .lt
  | _ :: _, [] => .gt
  | a :: xs, b :: ys => if a < b then .lt else if b < a then .gt else cmpChars xs ys

/-- `node.rs`: the tree type.  Object members keep their raw quoted key text. -/
inductive Node where
  | Object : List (Str × Node) → Node
  | Array : List Node → Node
  | Value : Str → Node

instance : Inhabited Node := ⟨.Object []⟩

/-- `sort.rs` `unquote`: strip exactly one leading and one trailing quote
when the text is longer than one character and both ends are quotes. -/
def unquote (s : Str) : Str :=
  if 1 < s.length && (s.head? = some '"') && (s.getLast? = some '"') then
    (s.drop 1).dropLast
  else s

/-- `format!("\"{}\"", key)` from `find_value`. -/
def quoteKey (k : Str) : Str := '"' :: (k ++ ['"'])

/-- `sort.rs` `find_value`: the first member whose key equals the quoted
key and whose value is a scalar `Value` supplies the text. -/
def find_value (node : Node) (key : Str) : Option Str :=
  match node with
  | .Object xs =>
    xs.findSome? fun p =>
      match p.2 with
      | .Value x => if p.1 = quoteKey key then some x else none
      | _ => none
  | _ => none

/-- One insertion step of a stable sort: `x` moves right past every element
it compares `gt` against and stops at the first other element. -/
def insertBy (cmp : α → α → Ordering) (x : α) : List α → List α
  | [] => [x]
  | y :: ys => if cmp x y = .gt then y :: insertBy cmp x ys else x :: y :: ys

/-- Stable sort by a comparator, modelling Rust's stable `slice::sort_by`. -/
def sortBy (cmp : α → α → Ordering) : List α → List α
  | [] => []
  | x :: xs => insertBy cmp x (sortBy cmp xs)

/-- The comparator of `sort_by_key(|x| unquote(x.0))` in `sort_by_name`. -/
def keyCmp (a b : Str × Node) : Ordering := cmpChars (unquote a.1) (unquote b.1)

mutual

/-- `sort.rs` `sort_by_name`: objects recurse into member values and then
stably sort members by unquoted key; arrays recurse elementwise. -/
def Node.sort_by_name : Node → Node
  | .Value v => .Value v
  | .Object xs => .Object (sortBy keyCmp (sbnMembers xs))
  | .Array xs => .Array (sbnList xs)

/-- `sort_by_name` applied to every member value of an object. -/
def sbnMembers : List (Str × Node) → List (Str × Node)
  | [] => []
  | p :: rest => (p.1, p.2.sort_by_name) :: sbnMembers rest

/-- `sort_by_name` applied to every element of an array. -/
def sbnList : List Node → List Node
  | [] => []
  | x :: rest => x.sort_by_name :: sbnList rest

end

/-- `print_indent`: the indent string repeated `level` times. -/
def nTimes : Nat → Str → Str
  | 0, _ => []
  | n + 1, ind => ind ++ nTimes n ind

mutual

/-- `format.rs` `Node::format`, as the text it appends to the buffer. -/
def Node.format (ind : Str) (level : Nat) (ini : Bool) : Node → Str
  | .Value x => (if ini then nTimes level ind else []) ++ x
  | .Array [] => (if ini then nTimes level ind else []) ++ ['[', ']']
  | .Array (x :: xs) =>
    (if ini then nTimes level ind else []) ++
      '[' :: '\n' :: (fmtElems ind (level + 1) (x :: xs) ++
        '\n' :: (nTimes level ind ++ [']']))
  | .Object [] => (if ini then nTimes level ind else []) ++ ['{', '}']
  | .Object (m :: ms) =>
    (if ini then nTimes level ind else []) ++
      '{' :: '\n' :: (fmtMembers ind (level + 1) (m :: ms) ++
        '\n' :: (nTimes level ind ++ ['}']))

/-- Non-empty array bodies: children at `level` with their own initial
indent, separated by `,` + newline, no trailing comma. -/
def fmtElems (ind : Str) (level : Nat) : List Node → Str
  | [] => []
  | [x] => x.format ind level true
  | x :: y :: ys =>
    x.format ind level true ++ ',' :: '\n' :: fmtElems ind level (y :: ys)

/-- Non-empty object bodies: each member as `<indent><key>: <value>`, the
value suppressing its own initial indent. -/
def fmtMembers (ind : Str) (level : Nat) : List (Str × Node) → Str
  | [] => []
  | [m] => nTimes level ind ++ (m.1 ++ ':' :: ' ' :: m.2.format ind level false)
  | m :: p :: ps =>
    (nTimes level ind ++ (m.1 ++ ':' :: ' ' :: m.2.format ind level false)) ++
      ',' :: '\n' :: fmtMembers ind level (p :: ps)

end

/-- `ToString for Node`: format with the fixed two-space indent at level 0
with no initial indent. -/
def Node.to_string (t : Node) : Str := t.format [' ', ' '] 0 false

/-- Join pieces with a separator between consecutive pieces and none at
the end (the `if i < xs.len() - 1` comma policy of the formatter). -/
def joinSep (sep : Str) : List Str → Str
  | [] => []
  | [x] => x
  | x :: y :: ys => x ++ sep ++ joinSep sep (y :: ys)

/-! ## The parser (`parse.rs`)

The nom combinators are specialized to the grammar.  A parser result
carries the unconsumed suffix together with a proof that it is no longer
than the input (used for termination); `incomplete` mirrors nom's
`Err::Incomplete`, which the `complete`-input combinators used by the
source never produce but which `parse` turns into a panic. -/

/-- Error kinds recorded in the `VerboseError` trace. -/
inductive EK where
  | tagK : EK
  | tw1 : EK
  | altE : EK
  | sepE : EK
  deriving DecidableEq

/-- `VerboseError<&str>`: a list of (remaining input at failure, kind). -/
abbrev VErr := List (Str × EK)

/-- Parser results over input `s`, with the suffix bounded by the input. -/
inductive BRes (α : Type) (s : Str) : Type where
  | ok : α → (r : Str) → r.length ≤ s.length → BRes α s
  | err : VErr → BRes α s
  | incomplete : BRes α s

/-- `space()`: `take_while(is_whitespace)`, which never fails; only its
consumption matters, so it is modelled by the suffix it leaves. -/
def dropWs (s : Str) : Str := s.dropWhile rustWs

/-- Lexicographic descent on `Nat × Nat`, non-strict first component. -/
def lexLe {a b c d : Nat} (h1 : a ≤ c) (h2 : b < d) :
    Prod.Lex (· < ·) (· < ·) (a, b) (c, d) := by
  rcases Nat.lt_or_ge a c with h | h
  · exact Prod.Lex.left _ _ h
  · have he : a = c := Nat.le_antisymm h1 h
    subst he
    exact Prod.Lex.right _ h2

/-- Lexicographic descent on `Nat × Nat`, strict first component. -/
def lexLt {a b c d : Nat} (h1 : a < c) :
    Prod.Lex (· < ·) (· < ·) (a, b) (c, d) :=
  Prod.Lex.left _ _ h1

/-- The count consumed by `fold_many0` inside `string()`: alternation of
`take_while1(not backslash, not quote)`, `tag("\\\"")`, and
`take_while1(not quote)`, summing the consumed lengths.  Every branch
consumes at least one character, so nom's `Many` zero-progress error
cannot fire and is not modelled.  The `take_while1` branches are encoded
one character at a time, which yields the same count: the first branch's
maximal run ends exactly where the next alternation attempt starts, and
the third branch's run (entered at a backslash not followed by a quote)
always ends the whole fold at the next quote or at the end of input, so
it is emitted in one piece. -/
def scanBody : Str → Nat
  | [] => 0
  | '"' :: _ => 0
  | '\\' :: '"' :: r => scanBody r + 2
  | '\\' :: r => (r.takeWhile (fun x => x != '"')).length + 1
  | _ :: r => scanBody r + 1

/-- `string()`: opening quote, the `fold_many0` body count, closing
quote; the stored text is the slice `input0[0..count + 2]`. -/
def pstring (s : Str) : BRes Str s :=
  match s with
  | '"' :: rest =>
    let n := scanBody rest
    match h : rest.drop n with
    | '"' :: r2 =>
      .ok (('"' :: rest).take (n + 2)) r2 (by
        have h1 := congrArg List.length h
        simp [List.length_drop] at h1
        simp
        omega)
    | other => .err [(other, .tagK)]
  | _ => .err [(s, .tagK)]

/-- `stringish()`: `take_while1` of non-whitespace non-delimiters. -/
def stringish (s : Str) : BRes Str s :=
  let run := s.takeWhile (fun c => !(rustWs c || isDelim c))
  if run.length = 0 then .err [(s, .tw1)]
  else .ok run (s.drop run.length) (by simp [List.length_drop])

/-- `value()`: strings when the input peeks a quote, barewords otherwise,
wrapped in `Node::Value`. -/
def pvalue (s : Str) : BRes Node s :=
  if s.head? = some '"' then
    match pstring s with
    | .ok v r h => .ok (.Value v) r h
    | .err e => .err e
    | .incomplete => .incomplete
  else
    match stringish s with
    | .ok v r h => .ok (.Value v) r h
    | .err e => .err e
    | .incomplete => .incomplete

mutual

/-- `node()`: `ws(alt((object(), array(), value())))`; the alternation
keeps the last branch's error and appends an `Alt` entry. -/
def pnode (s : Str) : BRes Node s :=
  match pobject (dropWs s) with
  | .ok t r h =>
    .ok t (dropWs r) (((List.dropWhile_sublist _).length_le).trans
      (h.trans ((List.dropWhile_sublist _).length_le)))
  | .incomplete => .incomplete
  | .err _ =>
    match parray (dropWs s) with
    | .ok t r h =>
      .ok t (dropWs r) (((List.dropWhile_sublist _).length_le).trans
        (h.trans ((List.dropWhile_sublist _).length_le)))
    | .incomplete => .incomplete
    | .err _ =>
      match pvalue (dropWs s) with
      | .ok t r h =>
        .ok t (dropWs r) (((List.dropWhile_sublist _).length_le).trans
          (h.trans ((List.dropWhile_sublist _).length_le)))
      | .incomplete => .incomplete
      | .err e3 => .err (e3 ++ [(dropWs s, .altE)])
termination_by (s.length, 1)
decreasing_by
  · exact lexLe (List.dropWhile_sublist _).length_le (by omega)
  · exact lexLe (List.dropWhile_sublist _).length_le (by omega)

/-- `object()`: `ws(tag("{"))`, the member list, `ws(tag("}"))`. -/
def pobject (s : Str) : BRes Node s :=
  match h1 : dropWs s with
  | '{' :: rest1 =>
    match pmembers (dropWs rest1) with
    | .ok ms r hm =>
      match h3 : dropWs r with
      | '}' :: rest2 =>
        .ok (.Object ms) (dropWs rest2) (by
          have a1 : (dropWs s).length ≤ s.length := (List.dropWhile_sublist _).length_le
          have a2 : (dropWs rest1).length ≤ rest1.length := (List.dropWhile_sublist _).length_le
          have a3 : (dropWs r).length ≤ r.length := (List.dropWhile_sublist _).length_le
          have a4 : (dropWs rest2).length ≤ rest2.length := (List.dropWhile_sublist _).length_le
          have b1 := congrArg List.length h1
          have b3 := congrArg List.length h3
          simp at b1 b3
          omega)
      | other => .err [(other, .tagK)]
    | .err e => .err e
    | .incomplete => .incomplete
  | other => .err [(other, .tagK)]
termination_by (s.length, 0)
decreasing_by
  · have a1 : (dropWs s).length ≤ s.length := (List.dropWhile_sublist _).length_le
    have a2 : (dropWs rest1).length ≤ rest1.length := (List.dropWhile_sublist _).length_le
    have b1 := congrArg List.length h1
    simp at b1
    exact lexLt (by omega)

/-- `array()`: `ws(tag("["))`, the element list, `ws(tag("]"))`. -/
def parray (s : Str) : BRes Node s :=
  match h1 : dropWs s with
  | '[' :: rest1 =>
    match pelems (dropWs rest1) with
    | .ok vs r hm =>
      match h3 : dropWs r with
      | ']' :: rest2 =>
        .ok (.Array vs) (dropWs rest2) (by
          have a1 : (dropWs s).length ≤ s.length := (List.dropWhile_sublist _).length_le
          have a2 : (dropWs rest1).length ≤ rest1.length := (List.dropWhile_sublist _).length_le
          have a3 : (dropWs r).length ≤ r.length := (List.dropWhile_sublist _).length_le
          have a4 : (dropWs rest2).length ≤ rest2.length := (List.dropWhile_sublist _).length_le
          have b1 := congrArg List.length h1
          have b3 := congrArg List.length h3
          simp at b1 b3
          omega)
      | other => .err [(other, .tagK)]
    | .err e => .err e
    | .incomplete => .incomplete
  | other => .err [(other, .tagK)]
termination_by (s.length, 0)
decreasing_by
  · have a1 : (dropWs s).length ≤ s.length := (List.dropWhile_sublist _).length_le
    have a2 : (dropWs rest1).length ≤ rest1.length := (List.dropWhile_sublist _).length_le
    have b1 := congrArg List.length h1
    simp at b1
    exact lexLt (by omega)

/-- `separated_list0(ws(tag(",")), separated_pair(string(), ws(tag(":")), node()))`:
the first member attempt; an `Error` yields the empty list with nothing
consumed. -/
def pmembers (s : Str) : BRes (List (Str × Node)) s :=
  match pstring s with
  | .ok k r1 hk =>
    match h2 : dropWs r1 with
    | ':' :: rest2 =>
      match pnode (dropWs rest2) with
      | .ok v r4 hv =>
        match pmembersLoop r4 with
        | .ok ms rest hrest =>
          .ok ((k, v) :: ms) rest (by
            have a2 : (dropWs r1).length ≤ r1.length := (List.dropWhile_sublist _).length_le
            have a3 : (dropWs rest2).length ≤ rest2.length := (List.dropWhile_sublist _).length_le
            have b2 := congrArg List.length h2
            simp at b2
            omega)
        | .err e => .err e
        | .incomplete => .incomplete
      | .err _ => .ok [] s (le_refl _)
      | .incomplete => .incomplete
    | _ => .ok [] s (le_refl _)
  | .err _ => .ok [] s (le_refl _)
  | .incomplete => .incomplete
termination_by (s.length, 0)
decreasing_by
  · have a2 : (dropWs r1).length ≤ r1.length := (List.dropWhile_sublist _).length_le
    have a3 : (dropWs rest2).length ≤ rest2.length := (List.dropWhile_sublist _).length_le
    have b2 := congrArg List.length h2
    simp at b2
    exact lexLt (by omega)
  · have a2 : (dropWs r1).length ≤ r1.length := (List.dropWhile_sublist _).length_le
    have a3 : (dropWs rest2).length ≤ rest2.length := (List.dropWhile_sublist _).length_le
    have b2 := congrArg List.length h2
    simp at b2
    exact lexLt (by omega)

/-- The iteration of the object member list: separator then member; a
failure of either after the first member ends the list, with the input
rewound to before the separator.  The `SeparatedList` zero-progress check
of nom is kept verbatim although the comma makes it unreachable. -/
def pmembersLoop (s : Str) : BRes (List (Str × Node)) s :=
  match h1 : dropWs s with
  | ',' :: rest1 =>
    if (dropWs rest1).length = s.length then .err [(dropWs rest1, .sepE)]
    else
      match pstring (dropWs rest1) with
      | .ok k r1 hk =>
        match h2 : dropWs r1 with
        | ':' :: rest2 =>
          match pnode (dropWs rest2) with
          | .ok v r4 hv =>
            match pmembersLoop r4 with
            | .ok ms rest hrest =>
              .ok ((k, v) :: ms) rest (by
                have a1 : (dropWs s).length ≤ s.length := (List.dropWhile_sublist _).length_le
                have a2 : (dropWs rest1).length ≤ rest1.length := (List.dropWhile_sublist _).length_le
                have a3 : (dropWs r1).length ≤ r1.length := (List.dropWhile_sublist _).length_le
                have a4 : (dropWs rest2).length ≤ rest2.length := (List.dropWhile_sublist _).length_le
                have b1 := congrArg List.length h1
                have b2 := congrArg List.length h2
                simp at b1 b2
                omega)
            | .err e => .err e
            | .incomplete => .incomplete
          | .err _ => .ok [] s (le_refl _)
          | .incomplete => .incomplete
        | _ => .ok [] s (le_refl _)
      | .err _ => .ok [] s (le_refl _)
      | .incomplete => .incomplete
  | _ => .ok [] s (le_refl _)
termination_by (s.length, 0)
decreasing_by
  all_goals
    have a1 : (dropWs s).length ≤ s.length := (List.dropWhile_sublist _).length_le
  all_goals
    have a2 : (dropWs rest1).length ≤ rest1.length := (List.dropWhile_sublist _).length_le
  all_goals
    have a3 : (dropWs r1).length ≤ r1.length := (List.dropWhile_sublist _).length_le
  all_goals
    have a4 : (dropWs rest2).length ≤ rest2.length := (List.dropWhile_sublist _).length_le
  all_goals have b1 := congrArg List.length h1
  all_goals have b2 := congrArg List.length h2
  all_goals simp at b1 b2
  all_goals exact lexLt (by omega)

/-- `separated_list0(ws(tag(",")), node())` for arrays: first element. -/
def pelems (s : Str) : BRes (List Node) s :=
  match pnode s with
  | .ok v r hv =>
    match pelemsLoop r with
    | .ok vs rest hrest => .ok (v :: vs) rest (hrest.trans hv)
    | .err e => .err e
    | .incomplete => .incomplete
  | .err _ => .ok [] s (le_refl _)
  | .incomplete => .incomplete
termination_by (s.length, 2)
decreasing_by
  · exact lexLe (le_refl _) (by omega)
  · exact lexLe hv (by omega)

/-- The iteration of the array element list. -/
def pelemsLoop (s : Str) : BRes (List Node) s :=
  match h1 : dropWs s with
  | ',' :: rest1 =>
    if (dropWs rest1).length = s.length then .err [(dropWs rest1, .sepE)]
    else
      match pnode (dropWs rest1) with
      | .ok v r hv =>
        match pelemsLoop r with
        | .ok vs rest hrest =>
          .ok (v :: vs) rest (by
            have a1 : (dropWs s).length ≤ s.length := (List.dropWhile_sublist _).length_le
            have a2 : (dropWs rest1).length ≤ rest1.length := (List.dropWhile_sublist _).length_le
            have b1 := congrArg List.length h1
            simp at b1
            omega)
        | .err e => .err e
        | .incomplete => .incomplete
      | .err _ => .ok [] s (le_refl _)
      | .incomplete => .incomplete
  | _ => .ok [] s (le_refl _)
termination_by (s.length, 0)
decreasing_by
  all_goals
    have a1 : (dropWs s).length ≤ s.length := (List.dropWhile_sublist _).length_le
  all_goals
    have a2 : (dropWs rest1).length ≤ rest1.length := (List.dropWhile_sublist _).length_le
  all_goals have b1 := congrArg List.length h1
  all_goals simp at b1
  all_goals exact lexLt (by omega)

end

/-- Parser results without the length-bound field, for plain statements. -/
inductive PR (α : Type) where
  | ok : α → Str → PR α
  | err : VErr → PR α
  | incomplete : PR α

/-- Forget the length bound. -/
def BRes.toPR : BRes α s → PR α
  | .ok a r _ => .ok a r
  | .err e => .err e
  | .incomplete => .incomplete

/-- `node()` as a plain function. -/
def pnodeR (s : Str) : PR Node := (pnode s).toPR

/-- `object()` as a plain function. -/
def pobjectR (s : Str) : PR Node := (pobject s).toPR

/-- `array()` as a plain function. -/
def parrayR (s : Str) : PR Node := (parray s).toPR

/-- The object member list as a plain function. -/
def pmembersR (s : Str) : PR (List (Str × Node)) := (pmembers s).toPR

/-- The object member list loop as a plain function. -/
def pmembersLoopR (s : Str) : PR (List (Str × Node)) := (pmembersLoop s).toPR

/-- The array element list as a plain function. -/
def pelemsR (s : Str) : PR (List Node) := (pelems s).toPR

/-- The array element list loop as a plain function. -/
def pelemsLoopR (s : Str) : PR (List Node) := (pelemsLoop s).toPR

/-- `value()` as a plain function. -/
def pvalueR (s : Str) : PR Node := (pvalue s).toPR

/-- `string()` as a plain function. -/
def pstringR (s : Str) : PR Str := (pstring s).toPR

/-- `parse`: run `node()` on the whole input; a success keeps only the
tree and silently discards the unconsumed remainder, an error keeps the
`VerboseError` data that `convert_error` renders, and `Incomplete` (which
the complete-input combinators cannot produce) would `panic!`, modelled
as `none`. -/
def parse (s : Str) : Option (Except VErr Node) :=
  match pnode s with
  | .ok t _ _ => some (.ok t)
  | .err e => some (.error e)
  | .incomplete => none

/-- The character offsets that `convert_error` reports for each recorded
error: the distance from the start of the input to the remaining suffix. -/
def errOffsets (input : Str) (e : VErr) : List Nat :=
  e.map fun p => input.length - p.1.length

/-- Offsets of the error produced by `parse`, when it fails. -/
def parseErrOffsets (s : Str) : Option (List Nat) :=
  match parse s with
  | some (.error e) => some (errOffsets s e)
  | _ => none

/-- Stability of a scanned string content under the `fold_many0` body:
`scanOk c` holds exactly when scanning `c ++ '"' :: X` consumes exactly
`c` and stops at the quote, for every continuation `X`.  A lone trailing
backslash is not stable: the `tag("\\\"")` branch would swallow the
closing quote. -/
def scanOk : Str → Bool
  | [] => true
  | '"' :: _ => false
  | '\\' :: '"' :: c => scanOk c
  | ['\\'] => false
  | '\\' :: c => (c.takeWhile (fun x => x != '"')).length = c.length
  | _ :: c => scanOk c

/-- Payloads producible by `stringish()`: non-empty, free of whitespace
and delimiters, and (because `value()` peeked) not starting with a quote. -/
def goodBare (v : Str) : Prop :=
  v ≠ [] ∧ v.head? ≠ some '"' ∧ ∀ c ∈ v, rustWs c = false ∧ isDelim c = false

/-- Payloads producible by `string()`: quote-delimited stable content. -/
def goodQuoted (v : Str) : Prop :=
  ∃ c, v = '"' :: (c ++ ['"']) ∧ scanOk c = true

/-- Payloads producible by `value()`. -/
def goodValue (v : Str) : Prop := goodBare v ∨ goodQuoted v

mutual

/-- Trees in the image of the parser. -/
def Wf : Node → Prop
  | .Value v => goodValue v
  | .Array xs => WfList xs
  | .Object ms => WfMembers ms

/-- `Wf` on array elements. -/
def WfList : List Node → Prop
  | [] => True
  | x :: xs => Wf x ∧ WfList xs

/-- `Wf` on object member lists: quoted keys and well-formed values. -/
def WfMembers : List (Str × Node) → Prop
  | [] => True
  | m :: ms => goodQuoted m.1 ∧ Wf m.2 ∧ WfMembers ms

end

/-- A suffix whose first character (if any) is whitespace or a structural
delimiter: `take_while1` inside `stringish()` cannot consume into it, so a
bareword ending right before it re-parses to itself. -/
def stopsAfter : Str → Prop
  | [] => True
  | c :: _ => rustWs c = true ∨ isDelim c = true

/-! ## Properties of the stable sort -/

/-- A comparator whose two argument orders always agree. -/
def SwapOK (cmp : α → α → Ordering) : Prop :=
  ∀ a b, cmp a b = (cmp b a).swap

theorem insertBy_perm (cmp : α → α → Ordering) (x : α) (l : List α) :
    (insertBy cmp x l).Perm (x :: l) := by
  induction l with
  | nil => simp [insertBy]
  | cons y ys ih =>
    by_cases h : cmp x y = .gt
    · simp only [insertBy, h, if_pos rfl]
      exact (ih.cons y).trans (List.Perm.swap x y ys)
    · simp [insertBy, h]

theorem sortBy_perm (cmp : α → α → Ordering) (l : List α) :
    (sortBy cmp l).Perm l := by
  induction l with
  | nil => simp [sortBy]
  | cons x xs ih => exact (insertBy_perm cmp x (sortBy cmp xs)).trans (ih.cons x)

theorem swapOK_gt {cmp : α → α → Ordering} (hs : SwapOK cmp) {a b : α}
    (h : cmp a b = .gt) : cmp b a = .lt := by
  have := hs b a
  rw [h] at this
  simpa [Ordering.swap] using this

theorem insertBy_chain {cmp : α → α → Ordering} (hs : SwapOK cmp) (x : α)
    {l : List α} (hl : l.Chain' (fun a b => cmp a b ≠ .gt)) :
    (insertBy cmp x l).Chain' (fun a b => cmp a b ≠ .gt) := by
  induction l with
  | nil => simp [insertBy]
  | cons y ys ih =>
    by_cases h : cmp x y = .gt
    · simp only [insertBy, h, if_pos rfl]
      have hys := (List.chain'_cons'.mp hl).2
      have hy := (List.chain'_cons'.mp hl).1
      refine List.chain'_cons'.mpr ⟨?_, ih hys⟩
      intro z hz
      cases ys with
      | nil =>
        simp [insertBy] at hz
        subst hz
        simp [swapOK_gt hs h]
      | cons w ws =>
        by_cases hw : cmp x w = .gt
        · simp [insertBy, hw] at hz
          subst hz
          exact hy w rfl
        · simp [insertBy, hw] at hz
          subst hz
          simp [swapOK_gt hs h]
    · simp only [insertBy, h, if_neg h]
      exact List.chain'_cons'.mpr ⟨fun z hz => by simp_all, hl⟩

theorem sortBy_chain {cmp : α → α → Ordering} (hs : SwapOK cmp) (l : List α) :
    (sortBy cmp l).Chain' (fun a b => cmp a b ≠ .gt) := by
  induction l with
  | nil => simp [sortBy]
  | cons x xs ih => exact insertBy_chain hs x ih

theorem sortBy_fix {cmp : α → α → Ordering} {l : List α}
    (hl : l.Chain' (fun a b => cmp a b ≠ .gt)) : sortBy cmp l = l := by
  induction l with
  | nil => rfl
  | cons x xs ih =>
    have hxs := (List.chain'_cons'.mp hl).2
    have hx := (List.chain'_cons'.mp hl).1
    rw [sortBy, ih hxs]
    cases xs with
    | nil => rfl
    | cons y ys => simp [insertBy, hx y rfl]

theorem sortBy_idem {cmp : α → α → Ordering} (hs : SwapOK cmp) (l : List α) :
    sortBy cmp (sortBy cmp l) = sortBy cmp l :=
  sortBy_fix (sortBy_chain hs l)

theorem insertBy_filter {cmp : α → α → Ordering} {p : α → Bool}
    (hp : ∀ a b, p a = true → p b = true → cmp a b ≠ .gt) (x : α) (l : List α) :
    (insertBy cmp x l).filter p = (x :: l).filter p := by
  induction l with
  | nil => rfl
  | cons y ys ih =>
    by_cases h : cmp x y = .gt
    · simp only [insertBy, h, if_pos rfl]
      by_cases hx : p x = true
      · have hy : p y = false := by
          by_contra hy
          exact hp x y hx (by simpa using hy) h
        simp [List.filter_cons, hx, hy] at ih ⊢
        exact ih
      · have hx' : p x = false := by simpa using hx
        simp [List.filter_cons, hx'] at ih ⊢
        rw [ih]
    · simp [insertBy, h]

theorem sortBy_filter {cmp : α → α → Ordering} {p : α → Bool}
    (hp : ∀ a b, p a = true → p b = true → cmp a b ≠ .gt) (l : List α) :
    (sortBy cmp l).filter p = l.filter p := by
  induction l with
  | nil => rfl
  | cons x xs ih =>
    rw [sortBy, insertBy_filter hp, List.filter_cons, List.filter_cons, ih]

theorem cmpChars_self (a : Str) : cmpChars a a = .eq := by
  induction a with
  | nil => rfl
  | cons c cs ih => simp [cmpChars, ih]

theorem cmpChars_swap (a b : Str) : cmpChars a b = (cmpChars b a).swap := by
  induction a generalizing b with
  | nil => cases b <;> rfl
  | cons c cs ih =>
    cases b with
    | nil => rfl
    | cons d ds =>
      rcases lt_trichotomy c d with h | h | h
      · simp only [cmpChars, if_pos h, if_neg (lt_asymm h)]
        rfl
      · subst h
        simp only [cmpChars, if_neg (lt_irrefl c)]
        exact ih ds
      · simp only [cmpChars, if_pos h, if_neg (lt_asymm h)]
        rfl

theorem keyCmp_swapOK : SwapOK keyCmp := fun _ _ => cmpChars_swap _ _

theorem sbnMembers_eq_self {l : List (Str × Node)}
    (h : ∀ p ∈ l, p.2.sort_by_name = p.2) : sbnMembers l = l := by
  induction l with
  | nil => rfl
  | cons p ps ih =>
    rw [sbnMembers, h p (by simp), ih fun q hq => h q (by simp [hq])]

theorem sbnList_eq_self {l : List Node}
    (h : ∀ x ∈ l, x.sort_by_name = x) : sbnList l = l := by
  induction l with
  | nil => rfl
  | cons x xs ih =>
    rw [sbnList, h x (by simp), ih fun q hq => h q (by simp [hq])]

mutual

theorem sort_by_name_idem (t : Node) :
    t.sort_by_name.sort_by_name = t.sort_by_name := by
  cases t with
  | Value v => rfl
  | Array xs =>
    rw [Node.sort_by_name, Node.sort_by_name]
    rw [sbnList_eq_self (sbnList_fixes xs)]
  | Object xs =>
    rw [Node.sort_by_name, Node.sort_by_name]
    have h2 : ∀ p ∈ sortBy keyCmp (sbnMembers xs), p.2.sort_by_name = p.2 :=
      fun p hp => sbnMembers_fixes xs p ((sortBy_perm keyCmp _).mem_iff.mp hp)
    rw [sbnMembers_eq_self h2, sortBy_idem keyCmp_swapOK]

theorem sbnList_fixes (l : List Node) : ∀ x ∈ sbnList l, x.sort_by_name = x := by
  cases l with
  | nil => intro x hx; cases hx
  | cons y ys =>
    intro x hx
    rw [sbnList] at hx
    rcases List.mem_cons.mp hx with h | h
    · rw [h]; exact sort_by_name_idem y
    · exact sbnList_fixes ys x h

theorem sbnMembers_fixes (l : List (Str × Node)) :
    ∀ p ∈ sbnMembers l, p.2.sort_by_name = p.2 := by
  cases l with
  | nil => intro p hp; cases hp
  | cons q qs =>
    intro p hp
    rw [sbnMembers] at hp
    rcases List.mem_cons.mp hp with h | h
    · rw [h]; exact sort_by_name_idem q.2
    · exact sbnMembers_fixes qs p h

end

theorem sbnMembers_eq_map (l : List (Str × Node)) :
    sbnMembers l = l.map fun p => (p.1, p.2.sort_by_name) := by
  induction l with
  | nil => rfl
  | cons p ps ih => rw [sbnMembers, ih, List.map_cons]

theorem sbnList_eq_map (l : List Node) : sbnList l = l.map Node.sort_by_name := by
  induction l with
  | nil => rfl
  | cons x xs ih => rw [sbnList, ih, List.map_cons]

theorem find_value_none {xs : List (Str × Node)} {k : Str}
    (h : ∀ p ∈ xs, p.1 = quoteKey k → ∀ v, p.2 ≠ Node.Value v) :
    find_value (.Object xs) k = none := by
  induction xs with
  | nil => rfl
  | cons p ps ih =>
    rw [find_value, List.findSome?_cons]
    have tail : find_value (.Object ps) k = none :=
      ih fun q hq => h q (List.mem_cons_of_mem p hq)
    rw [find_value] at tail
    cases hp : p.2 with
    | Value v =>
      have : p.1 ≠ quoteKey k := fun hk => h p (by simp) hk v hp
      simp [hp, this, tail]
    | Object ms => simp [hp, tail]
    | Array es => simp [hp, tail]

theorem find_value_first {ys : List (Str × Node)} {k v : Str}
    {key : Str} {w : Node} (zs : List (Str × Node))
    (hys : ∀ q ∈ ys, ¬(q.1 = quoteKey k ∧ ∃ u, q.2 = Node.Value u))
    (hkey : key = quoteKey k) (hw : w = Node.Value v) :
    find_value (.Object (ys ++ (key, w) :: zs)) k = some v := by
  induction ys with
  | nil =>
    rw [find_value, List.nil_append, List.findSome?_cons]
    simp [hkey, hw]
  | cons q qs ih =>
    rw [find_value, List.cons_append, List.findSome?_cons]
    have tail := ih fun r hr => hys r (List.mem_cons_of_mem q hr)
    rw [find_value] at tail
    cases hq : q.2 with
    | Value u =>
      have : q.1 ≠ quoteKey k := fun hk => hys q (by simp) ⟨hk, u, hq⟩
      simp [hq, this, tail]
    | Object ms => simp [hq, tail]
    | Array es => simp [hq, tail]

/-! ## Quoted keys and the spec-side lookup (C2) -/

theorem unquote_quoted (k : Str) : unquote ('"' :: (k ++ ['"'])) = k := by
  rw [unquote]
  have h1 : ('"' :: (k ++ ['"'])).getLast? = some '"' := by
    rw [show ('"' :: (k ++ ['"'])) = ('"' :: k) ++ ['"'] by simp,
      List.getLast?_concat]
  simp [h1, List.dropLast_concat]

theorem quoted_key_match {key k' : Str} (hq : key = '"' :: (k' ++ ['"'])) (k : Str) :
    (unquote key = k) ↔ (key = quoteKey k) := by
  subst hq
  rw [unquote_quoted, quoteKey]
  constructor
  · rintro rfl; rfl
  · intro h
    have h2 : k' ++ ['"'] = k ++ ['"'] := by injection h
    exact List.append_cancel_right h2

/-- C8: for every tree `t`, `sort_by_name` is idempotent:
`sort_by_name(sort_by_name(t)) = sort_by_name(t)`. -/
theorem c8_sort_by_name_idempotent (t : Node) :
    t.sort_by_name.sort_by_name = t.sort_by_name :=
  sort_by_name_idem t

/-- C5: `sort_by_name` leaves `Value` nodes unchanged, recursively sorts
array elements in place without reordering the array, and for objects
recursively sorts member values and then stably reorders the members by
lexicographic comparison of their unquoted key text: the resulting member
list is a permutation of the recursively sorted members, adjacent members
are in non-descending unquoted-key order, and members with any fixed
unquoted key keep their original relative order (stability). -/
theorem c5_sort_by_name_description :
    (∀ v : Str, (Node.Value v).sort_by_name = .Value v) ∧
    (∀ xs : List Node,
      (Node.Array xs).sort_by_name = .Array (xs.map Node.sort_by_name)) ∧
    (∀ xs : List (Str × Node), ∃ ys,
      (Node.Object xs).sort_by_name = .Object ys ∧
      ys.Perm (xs.map fun p => (p.1, p.2.sort_by_name)) ∧
      ys.Chain' (fun a b => cmpChars (unquote a.1) (unquote b.1) ≠ .gt) ∧
      ∀ k : Str, ys.filter (fun p => decide (unquote p.1 = k)) =
        (xs.map fun p => (p.1, p.2.sort_by_name)).filter
          (fun p => decide (unquote p.1 = k))) := by
  refine ⟨fun v => rfl,
    fun xs => by rw [Node.sort_by_name, sbnList_eq_map],
    fun xs => ⟨sortBy keyCmp (sbnMembers xs), by rw [Node.sort_by_name], ?_, ?_, ?_⟩⟩
  · rw [← sbnMembers_eq_map]
    exact sortBy_perm _ _
  · exact sortBy_chain keyCmp_swapOK _
  · intro k
    rw [← sbnMembers_eq_map]
    refine sortBy_filter (fun a b ha hb => ?_) _
    have h1 : unquote a.1 = k := by simpa using ha
    have h2 : unquote b.1 = k := by simpa using hb
    simp [keyCmp, h1, h2, cmpChars_self]

/-- C10: only members with a scalar `Value` can supply a sort key — an
object all of whose key-matching members carry `Object`/`Array` values
has no lookup value — and with duplicate keys the first member whose key
matches and whose value is scalar supplies the key. -/
theorem c10_find_value_scalar_first :
    (∀ (xs : List (Str × Node)) (k : Str),
      (∀ p ∈ xs, p.1 = quoteKey k → ∀ v, p.2 ≠ Node.Value v) →
      find_value (.Object xs) k = none) ∧
    (∀ (ys zs : List (Str × Node)) (k v : Str),
      (∀ q ∈ ys, ¬(q.1 = quoteKey k ∧ ∃ u, q.2 = Node.Value u)) →
      find_value (.Object (ys ++ (quoteKey k, Node.Value v) :: zs)) k = some v) :=
  ⟨fun _ _ h => find_value_none h,
   fun _ zs _ _ h => find_value_first zs h rfl rfl⟩

/-- Witness for C10: an object whose only `"a"` member holds an object
has no lookup value; with duplicates, the first scalar `"a"` wins. -/
theorem c10_witness :
    find_value (.Object [(quoteKey ['a'], Node.Object [])]) ['a'] = none ∧
    find_value (.Object ([(quoteKey ['a'], Node.Array [])] ++
      (quoteKey ['a'], Node.Value ['1']) :: [(quoteKey ['a'], Node.Value ['2'])]))
      ['a'] = some ['1'] := by
  constructor
  · refine c10_find_value_scalar_first.1 _ _ ?_
    intro p hp hk v hv
    simp at hp
    rw [hp] at hv
    cases hv
  · refine c10_find_value_scalar_first.2 _ _ _ _ ?_
    intro q hq
    simp at hq
    rintro ⟨-, u, hu⟩
    rw [hq] at hu
    cases hu

/-! ## The formatter (C6) -/

theorem nTimes_two (l : Nat) : nTimes l [' ', ' '] = List.replicate (2 * l) ' ' := by
  induction l with
  | zero => rfl
  | succ n ih =>
    rw [nTimes, ih, show 2 * (n + 1) = 2 * n + 1 + 1 by omega,
      List.replicate_succ, List.replicate_succ]
    rfl

theorem format_initial_indent (t : Node) (ind : Str) (l : Nat) :
    Node.format ind l true t = nTimes l ind ++ Node.format ind l false t := by
  cases t with
  | Value v => simp [Node.format]
  | Array xs => cases xs <;> simp [Node.format]
  | Object ms => cases ms <;> simp [Node.format]

theorem fmtElems_eq_joinSep (ind : Str) (l : Nat) (x : Node) (xs : List Node) :
    fmtElems ind l (x :: xs) =
      joinSep [',', '\n'] ((x :: xs).map (Node.format ind l true)) := by
  induction xs generalizing x with
  | nil => rfl
  | cons y ys ih =>
    rw [fmtElems, ih y]
    simp [joinSep]

theorem fmtMembers_eq_joinSep (ind : Str) (l : Nat) (m : Str × Node)
    (ms : List (Str × Node)) :
    fmtMembers ind l (m :: ms) =
      joinSep [',', '\n'] ((m :: ms).map fun q =>
        nTimes l ind ++ (q.1 ++ ':' :: ' ' :: q.2.format ind l false)) := by
  induction ms generalizing m with
  | nil => rfl
  | cons p ps ih =>
    rw [fmtMembers, ih p]
    simp [joinSep]

theorem format_array_getLast (ind : Str) (xs : List Node) (l : Nat) :
    (Node.format ind l false (.Array xs)).getLast? = some ']' := by
  cases xs with
  | nil => rfl
  | cons x rest =>
    rw [Node.format]
    have h : (if (false : Bool) then nTimes l ind else []) ++
        '[' :: '\n' :: (fmtElems ind (l + 1) (x :: rest) ++
          '\n' :: (nTimes l ind ++ [']'])) =
        ('[' :: '\n' :: (fmtElems ind (l + 1) (x :: rest) ++
          '\n' :: nTimes l ind)) ++ [']'] := by
      simp
    rw [h, List.getLast?_concat]

theorem format_object_getLast (ind : Str) (ms : List (Str × Node)) (l : Nat) :
    (Node.format ind l false (.Object ms)).getLast? = some '}' := by
  cases ms with
  | nil => rfl
  | cons m rest =>
    rw [Node.format]
    have h : (if (false : Bool) then nTimes l ind else []) ++
        '{' :: '\n' :: (fmtMembers ind (l + 1) (m :: rest) ++
          '\n' :: (nTimes l ind ++ ['}'])) =
        ('{' :: '\n' :: (fmtMembers ind (l + 1) (m :: rest) ++
          '\n' :: nTimes l ind)) ++ ['}'] := by
      simp
    rw [h, List.getLast?_concat]

/-- C6: the formatter emits `Value` text verbatim, renders empty
containers as `{}` and `[]` with no internal whitespace, renders each
non-empty array child on its own line at `level+1` indentation (two
spaces per level, the child's initial indent being the formatter's
via the `true` flag), separates children with comma-newline with no
trailing comma, closes with the bracket at the parent level's
indentation, and never appends a trailing newline (container output ends
with its closing bracket; `Value` output is the payload itself). -/
theorem c6_format_description :
    (∀ (v : Str) (l : Nat), Node.format [' ', ' '] l false (.Value v) = v) ∧
    (∀ l : Nat, Node.format [' ', ' '] l false (.Array []) = ['[', ']']) ∧
    (∀ l : Nat, Node.format [' ', ' '] l false (.Object []) = ['{', '}']) ∧
    (∀ (t : Node) (l : Nat), Node.format [' ', ' '] l true t =
      List.replicate (2 * l) ' ' ++ Node.format [' ', ' '] l false t) ∧
    (∀ (x : Node) (xs : List Node) (l : Nat),
      Node.format [' ', ' '] l false (.Array (x :: xs)) =
        '[' :: '\n' ::
          (joinSep [',', '\n']
              ((x :: xs).map (Node.format [' ', ' '] (l + 1) true)) ++
            '\n' :: (List.replicate (2 * l) ' ' ++ [']']))) ∧
    (∀ (xs : List Node) (l : Nat),
      (Node.format [' ', ' '] l false (.Array xs)).getLast? = some ']') ∧
    (∀ (ms : List (Str × Node)) (l : Nat),
      (Node.format [' ', ' '] l false (.Object ms)).getLast? = some '}') := by
  refine ⟨fun v l => by simp [Node.format],
    fun l => by simp [Node.format],
    fun l => by simp [Node.format],
    fun t l => by rw [format_initial_indent, nTimes_two],
    fun x xs l => ?_,
    fun xs l => format_array_getLast _ xs l,
    fun ms l => format_object_getLast _ ms l⟩
  rw [Node.format, fmtElems_eq_joinSep, nTimes_two]
  simp

/-! ## Plain equations for the parser -/

theorem toPR_ok_length {α : Type} {s : Str} {p : BRes α s} {a : α} {r : Str}
    (h : p.toPR = .ok a r) : r.length ≤ s.length := by
  cases p with
  | ok a' r' h' =>
    rw [BRes.toPR] at h
    cases h
    exact h'
  | err e => simp [BRes.toPR] at h
  | incomplete => simp [BRes.toPR] at h

theorem pnodeR_eq (s : Str) :
    pnodeR s =
      match pobjectR (dropWs s) with
      | .ok t r => .ok t (dropWs r)
      | .incomplete => .incomplete
      | .err _ =>
        match parrayR (dropWs s) with
        | .ok t r => .ok t (dropWs r)
        | .incomplete => .incomplete
        | .err _ =>
          match pvalueR (dropWs s) with
          | .ok t r => .ok t (dropWs r)
          | .incomplete => .incomplete
          | .err e3 => .err (e3 ++ [(dropWs s, .altE)]) := by
  rw [pnodeR, pnode.eq_def, pobjectR, parrayR, pvalueR]
  cases pobject (dropWs s) with
  | ok t r h => rfl
  | incomplete => rfl
  | err e1 =>
    cases parray (dropWs s) with
    | ok t r h => rfl
    | incomplete => rfl
    | err e2 => cases pvalue (dropWs s) <;> rfl

theorem pobjectR_ok {s rest1 r rest2 : Str} {ms : List (Str × Node)}
    (h1 : dropWs s = '{' :: rest1) (h2 : pmembersR (dropWs rest1) = .ok ms r)
    (h3 : dropWs r = '}' :: rest2) :
    pobjectR s = .ok (.Object ms) (dropWs rest2) := by
  rw [pobjectR, pobject.eq_def]
  split
  · rename_i rest1' heq
    rw [h1] at heq
    injection heq with _ hr
    subst hr
    split
    · rename_i ms' r' hm' heq'
      rw [pmembersR, heq', BRes.toPR] at h2
      injection h2 with hms hr'
      subst hms
      subst hr'
      split
      · rename_i rest2' heq2
        rw [h3] at heq2
        injection heq2 with _ h4
        subst h4
        rfl
      · rename_i heq2
        exact absurd h3 (heq2 rest2)
    · rename_i e heq'
      rw [pmembersR, heq', BRes.toPR] at h2
      cases h2
    · rename_i heq'
      rw [pmembersR, heq', BRes.toPR] at h2
      cases h2
  · rename_i heq
    exact absurd h1 (heq rest1)

theorem pobjectR_err_members {s rest1 : Str} {e : VErr}
    (h1 : dropWs s = '{' :: rest1) (h2 : pmembersR (dropWs rest1) = .err e) :
    pobjectR s = .err e := by
  rw [pobjectR, pobject.eq_def]
  split
  · rename_i rest1' heq
    rw [h1] at heq
    injection heq with _ hr
    subst hr
    split
    · rename_i ms' r' hm' heq'
      rw [pmembersR, heq', BRes.toPR] at h2
      cases h2
    · rename_i e' heq'
      rw [pmembersR, heq', BRes.toPR] at h2
      injection h2 with he
      subst he
      rfl
    · rename_i heq'
      rw [pmembersR, heq', BRes.toPR] at h2
      cases h2
  · rename_i heq
    exact absurd h1 (heq rest1)

theorem pobjectR_err_close {s rest1 r : Str} {ms : List (Str × Node)}
    (h1 : dropWs s = '{' :: rest1) (h2 : pmembersR (dropWs rest1) = .ok ms r)
    (h3 : (dropWs r).head? ≠ some '}') :
    pobjectR s = .err [(dropWs r, .tagK)] := by
  rw [pobjectR, pobject.eq_def]
  split
  · rename_i rest1' heq
    rw [h1] at heq
    injection heq with _ hr
    subst hr
    split
    · rename_i ms' r' hm' heq'
      rw [pmembersR, heq', BRes.toPR] at h2
      injection h2 with hms hr'
      subst hms
      subst hr'
      split
      · rename_i rest2' heq2
        rw [heq2] at h3
        simp at h3
      · rename_i heq2
        rfl
    · rename_i e' heq'
      rw [pmembersR, heq', BRes.toPR] at h2
      cases h2
    · rename_i heq'
      rw [pmembersR, heq', BRes.toPR] at h2
      cases h2
  · rename_i heq
    exact absurd h1 (heq rest1)

theorem pobjectR_err_notBrace {s : Str} (h : (dropWs s).head? ≠ some '{') :
    pobjectR s = .err [(dropWs s, .tagK)] := by
  rw [pobjectR, pobject.eq_def]
  split
  · rename_i rest1' heq
    rw [heq] at h
    simp at h
  · rfl

theorem parrayR_ok {s rest1 r rest2 : Str} {vs : List Node}
    (h1 : dropWs s = '[' :: rest1) (h2 : pelemsR (dropWs rest1) = .ok vs r)
    (h3 : dropWs r = ']' :: rest2) :
    parrayR s = .ok (.Array vs) (dropWs rest2) := by
  rw [parrayR, parray.eq_def]
  split
  · rename_i rest1' heq
    rw [h1] at heq
    injection heq with _ hr
    subst hr
    split
    · rename_i vs' r' hm' heq'
      rw [pelemsR, heq', BRes.toPR] at h2
      injection h2 with hvs hr'
      subst hvs
      subst hr'
      split
      · rename_i rest2' heq2
        rw [h3] at heq2
        injection heq2 with _ h4
        subst h4
        rfl
      · rename_i heq2
        exact absurd h3 (heq2 rest2)
    · rename_i e heq'
      rw [pelemsR, heq', BRes.toPR] at h2
      cases h2
    · rename_i heq'
      rw [pelemsR, heq', BRes.toPR] at h2
      cases h2
  · rename_i heq
    exact absurd h1 (heq rest1)

theorem parrayR_err_elems {s rest1 : Str} {e : VErr}
    (h1 : dropWs s = '[' :: rest1) (h2 : pelemsR (dropWs rest1) = .err e) :
    parrayR s = .err e := by
  rw [parrayR, parray.eq_def]
  split
  · rename_i rest1' heq
    rw [h1] at heq
    injection heq with _ hr
    subst hr
    split
    · rename_i vs' r' hm' heq'
      rw [pelemsR, heq', BRes.toPR] at h2
      cases h2
    · rename_i e' heq'
      rw [pelemsR, heq', BRes.toPR] at h2
      injection h2 with he
      subst he
      rfl
    · rename_i heq'
      rw [pelemsR, heq', BRes.toPR] at h2
      cases h2
  · rename_i heq
    exact absurd h1 (heq rest1)

theorem parrayR_err_close {s rest1 r : Str} {vs : List Node}
    (h1 : dropWs s = '[' :: rest1) (h2 : pelemsR (dropWs rest1) = .ok vs r)
    (h3 : (dropWs r).head? ≠ some ']') :
    parrayR s = .err [(dropWs r, .tagK)] := by
  rw [parrayR, parray.eq_def]
  split
  · rename_i rest1' heq
    rw [h1] at heq
    injection heq with _ hr
    subst hr
    split
    · rename_i vs' r' hm' heq'
      rw [pelemsR, heq', BRes.toPR] at h2
      injection h2 with hvs hr'
      subst hvs
      subst hr'
      split
      · rename_i rest2' heq2
        rw [heq2] at h3
        simp at h3
      · rename_i heq2
        rfl
    · rename_i e' heq'
      rw [pelemsR, heq', BRes.toPR] at h2
      cases h2
    · rename_i heq'
      rw [pelemsR, heq', BRes.toPR] at h2
      cases h2
  · rename_i heq
    exact absurd h1 (heq rest1)

theorem parrayR_err_notBracket {s : Str} (h : (dropWs s).head? ≠ some '[') :
    parrayR s = .err [(dropWs s, .tagK)] := by
  rw [parrayR, parray.eq_def]
  split
  · rename_i rest1' heq
    rw [heq] at h
    simp at h
  · rfl

theorem pnodeR_obj_ok {s r : Str} {t : Node}
    (h : pobjectR (dropWs s) = .ok t r) : pnodeR s = .ok t (dropWs r) := by
  rw [pnodeR_eq, h]

theorem pnodeR_arr_ok {s r : Str} {t : Node} {e1 : VErr}
    (h1 : pobjectR (dropWs s) = .err e1) (h2 : parrayR (dropWs s) = .ok t r) :
    pnodeR s = .ok t (dropWs r) := by
  rw [pnodeR_eq, h1, h2]

theorem pnodeR_val_ok {s r : Str} {t : Node} {e1 e2 : VErr}
    (h1 : pobjectR (dropWs s) = .err e1) (h2 : parrayR (dropWs s) = .err e2)
    (h3 : pvalueR (dropWs s) = .ok t r) :
    pnodeR s = .ok t (dropWs r) := by
  rw [pnodeR_eq, h1, h2, h3]

theorem pnodeR_err {s : Str} {e1 e2 e3 : VErr}
    (h1 : pobjectR (dropWs s) = .err e1) (h2 : parrayR (dropWs s) = .err e2)
    (h3 : pvalueR (dropWs s) = .err e3) :
    pnodeR s = .err (e3 ++ [(dropWs s, .altE)]) := by
  rw [pnodeR_eq, h1, h2, h3]

theorem pmembersR_ok_first {s k r1 rest2 r4 rest : Str} {v : Node}
    {ms : List (Str × Node)}
    (h1 : pstringR s = .ok k r1) (h2 : dropWs r1 = ':' :: rest2)
    (h3 : pnodeR (dropWs rest2) = .ok v r4)
    (h4 : pmembersLoopR r4 = .ok ms rest) :
    pmembersR s = .ok ((k, v) :: ms) rest := by
  rw [pmembersR, pmembers.eq_def]
  split
  · rename_i k' r1' hk' heq
    rw [pstringR, heq, BRes.toPR] at h1
    injection h1 with hk hr1
    subst hk
    subst hr1
    split
    · rename_i rest2' heq2
      rw [h2] at heq2
      injection heq2 with _ h5
      subst h5
      split
      · rename_i v' r4' hv' heq3
        rw [pnodeR, heq3, BRes.toPR] at h3
        injection h3 with hv hr4
        subst hv
        subst hr4
        split
        · rename_i ms' rest' hrest' heq4
          rw [pmembersLoopR, heq4, BRes.toPR] at h4
          injection h4 with hms hrest
          subst hms
          subst hrest
          rfl
        · rename_i e heq4
          rw [pmembersLoopR, heq4, BRes.toPR] at h4
          cases h4
        · rename_i heq4
          rw [pmembersLoopR, heq4, BRes.toPR] at h4
          cases h4
      · rename_i e heq3
        rw [pnodeR, heq3, BRes.toPR] at h3
        cases h3
      · rename_i heq3
        rw [pnodeR, heq3, BRes.toPR] at h3
        cases h3
    · rename_i heq2
      exact absurd h2 (heq2 rest2)
  · rename_i e heq
    rw [pstringR, heq, BRes.toPR] at h1
    cases h1
  · rename_i heq
    rw [pstringR, heq, BRes.toPR] at h1
    cases h1

theorem pmembersR_empty_str {s : Str} {e : VErr}
    (h1 : pstringR s = .err e) : pmembersR s = .ok [] s := by
  rw [pmembersR, pmembers.eq_def]
  split
  · rename_i k' r1' hk' heq
    rw [pstringR, heq, BRes.toPR] at h1
    cases h1
  · rfl
  · rename_i heq
    rw [pstringR, heq, BRes.toPR] at h1
    cases h1

theorem pmembersR_empty_colon {s k r1 : Str}
    (h1 : pstringR s = .ok k r1) (h2 : (dropWs r1).head? ≠ some ':') :
    pmembersR s = .ok [] s := by
  rw [pmembersR, pmembers.eq_def]
  split
  · rename_i k' r1' hk' heq
    rw [pstringR, heq, BRes.toPR] at h1
    injection h1 with hk hr1
    subst hk
    subst hr1
    split
    · rename_i rest2' heq2
      rw [heq2] at h2
      simp at h2
    · rfl
  · rename_i e heq
    rw [pstringR, heq, BRes.toPR] at h1
    cases h1
  · rename_i heq
    rw [pstringR, heq, BRes.toPR] at h1
    cases h1

theorem pmembersR_empty_node {s k r1 rest2 : Str} {e : VErr}
    (h1 : pstringR s = .ok k r1) (h2 : dropWs r1 = ':' :: rest2)
    (h3 : pnodeR (dropWs rest2) = .err e) :
    pmembersR s = .ok [] s := by
  rw [pmembersR, pmembers.eq_def]
  split
  · rename_i k' r1' hk' heq
    rw [pstringR, heq, BRes.toPR] at h1
    injection h1 with hk hr1
    subst hk
    subst hr1
    split
    · rename_i rest2' heq2
      rw [h2] at heq2
      injection heq2 with _ h5
      subst h5
      split
      · rename_i v' r4' hv' heq3
        rw [pnodeR, heq3, BRes.toPR] at h3
        cases h3
      · rfl
      · rename_i heq3
        rw [pnodeR, heq3, BRes.toPR] at h3
        cases h3
    · rename_i heq2
      exact absurd h2 (heq2 rest2)
  · rename_i e' heq
    rw [pstringR, heq, BRes.toPR] at h1
    cases h1
  · rename_i heq
    rw [pstringR, heq, BRes.toPR] at h1
    cases h1

theorem pmembersLoopR_done {s : Str} (h : (dropWs s).head? ≠ some ',') :
    pmembersLoopR s = .ok [] s := by
  rw [pmembersLoopR, pmembersLoop.eq_def]
  split
  · rename_i rest1' heq
    rw [heq] at h
    simp at h
  · rfl

theorem pmembersLoopR_step {s rest1 k r1 rest2 r4 rest : Str} {v : Node}
    {ms : List (Str × Node)}
    (h0 : dropWs s = ',' :: rest1)
    (h1 : pstringR (dropWs rest1) = .ok k r1) (h2 : dropWs r1 = ':' :: rest2)
    (h3 : pnodeR (dropWs rest2) = .ok v r4)
    (h4 : pmembersLoopR r4 = .ok ms rest) :
    pmembersLoopR s = .ok ((k, v) :: ms) rest := by
  have hlen : ¬ (dropWs rest1).length = s.length := by
    have a1 : (dropWs s).length ≤ s.length := (List.dropWhile_sublist _).length_le
    have a2 : (dropWs rest1).length ≤ rest1.length := (List.dropWhile_sublist _).length_le
    have b1 := congrArg List.length h0
    simp at b1
    omega
  rw [pmembersLoopR, pmembersLoop.eq_def]
  split
  · rename_i rest1' heq
    rw [h0] at heq
    injection heq with _ hr
    subst hr
    rw [if_neg hlen]
    split
    · rename_i k' r1' hk' heq1
      rw [pstringR, heq1, BRes.toPR] at h1
      injection h1 with hk hr1
      subst hk
      subst hr1
      split
      · rename_i rest2' heq2
        rw [h2] at heq2
        injection heq2 with _ h5
        subst h5
        split
        · rename_i v' r4' hv' heq3
          rw [pnodeR, heq3, BRes.toPR] at h3
          injection h3 with hv hr4
          subst hv
          subst hr4
          split
          · rename_i ms' rest' hrest' heq4
            rw [pmembersLoopR, heq4, BRes.toPR] at h4
            injection h4 with hms hrest
            subst hms
            subst hrest
            rfl
          · rename_i e heq4
            rw [pmembersLoopR, heq4, BRes.toPR] at h4
            cases h4
          · rename_i heq4
            rw [pmembersLoopR, heq4, BRes.toPR] at h4
            cases h4
        · rename_i e heq3
          rw [pnodeR, heq3, BRes.toPR] at h3
          cases h3
        · rename_i heq3
          rw [pnodeR, heq3, BRes.toPR] at h3
          cases h3
      · rename_i heq2
        exact absurd h2 (heq2 rest2)
    · rename_i e heq1
      rw [pstringR, heq1, BRes.toPR] at h1
      cases h1
    · rename_i heq1
      rw [pstringR, heq1, BRes.toPR] at h1
      cases h1
  · rename_i heq
    exact absurd h0 (heq rest1)

theorem pelemsR_ok {s r rest : Str} {v : Node} {vs : List Node}
    (h1 : pnodeR s = .ok v r) (h2 : pelemsLoopR r = .ok vs rest) :
    pelemsR s = .ok (v :: vs) rest := by
  rw [pelemsR, pelems.eq_def]
  split
  · rename_i v' r' hv' heq
    rw [pnodeR, heq, BRes.toPR] at h1
    injection h1 with hv hr
    subst hv
    subst hr
    split
    · rename_i vs' rest' hrest' heq2
      rw [pelemsLoopR, heq2, BRes.toPR] at h2
      injection h2 with hvs hrest
      subst hvs
      subst hrest
      rfl
    · rename_i e heq2
      rw [pelemsLoopR, heq2, BRes.toPR] at h2
      cases h2
    · rename_i heq2
      rw [pelemsLoopR, heq2, BRes.toPR] at h2
      cases h2
  · rename_i e heq
    rw [pnodeR, heq, BRes.toPR] at h1
    cases h1
  · rename_i heq
    rw [pnodeR, heq, BRes.toPR] at h1
    cases h1

theorem pelemsR_empty {s : Str} {e : VErr}
    (h1 : pnodeR s = .err e) : pelemsR s = .ok [] s := by
  rw [pelemsR, pelems.eq_def]
  split
  · rename_i v' r' hv' heq
    rw [pnodeR, heq, BRes.toPR] at h1
    cases h1
  · rfl
  · rename_i heq
    rw [pnodeR, heq, BRes.toPR] at h1
    cases h1

theorem pelemsLoopR_done {s : Str} (h : (dropWs s).head? ≠ some ',') :
    pelemsLoopR s = .ok [] s := by
  rw [pelemsLoopR, pelemsLoop.eq_def]
  split
  · rename_i rest1' heq
    rw [heq] at h
    simp at h
  · rfl

theorem pelemsLoopR_step {s rest1 r rest : Str} {v : Node} {vs : List Node}
    (h0 : dropWs s = ',' :: rest1)
    (h1 : pnodeR (dropWs rest1) = .ok v r)
    (h2 : pelemsLoopR r = .ok vs rest) :
    pelemsLoopR s = .ok (v :: vs) rest := by
  have hlen : ¬ (dropWs rest1).length = s.length := by
    have a1 : (dropWs s).length ≤ s.length := (List.dropWhile_sublist _).length_le
    have a2 : (dropWs rest1).length ≤ rest1.length := (List.dropWhile_sublist _).length_le
    have b1 := congrArg List.length h0
    simp at b1
    omega
  rw [pelemsLoopR, pelemsLoop.eq_def]
  split
  · rename_i rest1' heq
    rw [h0] at heq
    injection heq with _ hr
    subst hr
    rw [if_neg hlen]
    split
    · rename_i v' r' hv' heq1
      rw [pnodeR, heq1, BRes.toPR] at h1
      injection h1 with hv hr'
      subst hv
      subst hr'
      split
      · rename_i vs' rest' hrest' heq2
        rw [pelemsLoopR, heq2, BRes.toPR] at h2
        injection h2 with hvs hrest
        subst hvs
        subst hrest
        rfl
      · rename_i e heq2
        rw [pelemsLoopR, heq2, BRes.toPR] at h2
        cases h2
      · rename_i heq2
        rw [pelemsLoopR, heq2, BRes.toPR] at h2
        cases h2
    · rename_i e heq1
      rw [pnodeR, heq1, BRes.toPR] at h1
      cases h1
    · rename_i heq1
      rw [pnodeR, heq1, BRes.toPR] at h1
      cases h1
  · rename_i heq
    exact absurd h0 (heq rest1)

theorem pvalueR_quoted_ok {s v r : Str} (h0 : s.head? = some '"')
    (h1 : pstringR s = .ok v r) : pvalueR s = .ok (.Value v) r := by
  rw [pvalueR, pvalue, if_pos h0]
  rw [pstringR] at h1
  cases hps : pstring s with
  | ok v' r' h' =>
    rw [hps, BRes.toPR] at h1
    injection h1 with hv hr
    subst hv
    subst hr
    rw [BRes.toPR]
  | err e =>
    rw [hps, BRes.toPR] at h1
    cases h1
  | incomplete =>
    rw [hps, BRes.toPR] at h1
    cases h1

theorem pvalueR_quoted_err {s : Str} {e : VErr} (h0 : s.head? = some '"')
    (h1 : pstringR s = .err e) : pvalueR s = .err e := by
  rw [pvalueR, pvalue, if_pos h0]
  rw [pstringR] at h1
  cases hps : pstring s with
  | ok v' r' h' =>
    rw [hps, BRes.toPR] at h1
    cases h1
  | err e' =>
    rw [hps, BRes.toPR] at h1
    injection h1 with he
    subst he
    rw [BRes.toPR]
  | incomplete =>
    rw [hps, BRes.toPR] at h1
    cases h1

theorem pvalueR_bare_ok {s : Str} (h0 : s.head? ≠ some '"')
    (h1 : (s.takeWhile fun c => !(rustWs c || isDelim c)) ≠ []) :
    pvalueR s = .ok
      (.Value (s.takeWhile fun c => !(rustWs c || isDelim c)))
      (s.drop (s.takeWhile fun c => !(rustWs c || isDelim c)).length) := by
  rw [pvalueR, pvalue, if_neg h0, stringish]
  rw [if_neg (by simpa using h1)]
  rfl

theorem pvalueR_bare_err {s : Str} (h0 : s.head? ≠ some '"')
    (h1 : (s.takeWhile fun c => !(rustWs c || isDelim c)) = []) :
    pvalueR s = .err [(s, .tw1)] := by
  rw [pvalueR, pvalue, if_neg h0, stringish]
  rw [if_pos (by simp only [h1, List.length_nil])]
  rfl

/-! ## The string scanner -/

theorem head?_dropWhile_false {p : Char → Bool} {l : Str} {a : Char}
    (h : (l.dropWhile p).head? = some a) : p a = false := by
  induction l with
  | nil => simp [List.dropWhile] at h
  | cons c r ih =>
    rw [List.dropWhile] at h
    by_cases hc : p c
    · simp only [hc] at h
      exact ih h
    · have hc' : p c = false := by simpa using hc
      simp only [hc'] at h
      simp at h
      subst h
      exact hc'

theorem drop_takeWhile_length (p : Char → Bool) (l : Str) :
    l.drop (l.takeWhile p).length = l.dropWhile p := by
  induction l with
  | nil => rfl
  | cons c r ih =>
    rw [List.takeWhile, List.dropWhile]
    by_cases hc : p c
    · simp only [hc]
      simpa using ih
    · have hc' : p c = false := by simpa using hc
      simp only [hc']
      rfl

theorem take_takeWhile_length (p : Char → Bool) (l : Str) :
    l.take (l.takeWhile p).length = l.takeWhile p := by
  induction l with
  | nil => rfl
  | cons c r ih =>
    rw [List.takeWhile]
    by_cases hc : p c
    · simp only [hc]
      simpa using ih
    · have hc' : p c = false := by simpa using hc
      simp only [hc']
      rfl

theorem takeWhile_all_append {p : Char → Bool} {l : Str} (m : Str)
    (h : ∀ x ∈ l, p x = true) : (l ++ m).takeWhile p = l ++ m.takeWhile p := by
  induction l with
  | nil => rfl
  | cons c r ih =>
    rw [List.cons_append, List.takeWhile]
    simp only [h c (by simp)]
    rw [ih fun x hx => h x (by simp [hx])]
    simp

theorem scanBody_le (s : Str) : scanBody s ≤ s.length := by
  have key : ∀ (n : Nat) (s : Str), s.length = n → scanBody s ≤ s.length := by
    intro n
    induction n using Nat.strong_induction_on with
    | _ n ih =>
      intro s hn
      rcases s with _ | ⟨c, r⟩
      · simp [scanBody]
      by_cases hc : c = '"'
      · subst hc
        simp [scanBody]
      by_cases hb : c = '\\'
      · subst hb
        rcases r with _ | ⟨a, r'⟩
        · simp [scanBody]
        by_cases ha : a = '"'
        · subst ha
          have h := ih r'.length (by simp at hn; omega) r' rfl
          simp only [scanBody]
          simp
          omega
        · have hrun := (List.takeWhile_prefix (l := r')
            (fun x => x != '"')).length_le
          simp [scanBody, ha]
          omega
      · have h := ih r.length (by simp at hn; omega) r rfl
        simp [scanBody, hc, hb]
        omega
  exact key s.length s rfl

theorem scanBody_stop (s : Str) :
    (s.drop (scanBody s)).head? = some '"' ∨ s.drop (scanBody s) = [] := by
  have key : ∀ (n : Nat) (s : Str), s.length = n →
      (s.drop (scanBody s)).head? = some '"' ∨ s.drop (scanBody s) = [] := by
    intro n
    induction n using Nat.strong_induction_on with
    | _ n ih =>
      intro s hn
      rcases s with _ | ⟨c, r⟩
      · right
        rfl
      by_cases hc : c = '"'
      · subst hc
        left
        rfl
      by_cases hb : c = '\\'
      · subst hb
        rcases r with _ | ⟨a, r'⟩
        · right
          simp [scanBody]
        by_cases ha : a = '"'
        · subst ha
          have h := ih r'.length (by simp at hn; omega) r' rfl
          simp only [scanBody]
          simpa using h
        · have hdw := drop_takeWhile_length (fun x => x != '"') (a :: r')
          have hstep : ('\\' :: a :: r').drop
              (((a :: r').takeWhile (fun x => x != '"')).length + 1) =
              (a :: r').drop ((a :: r').takeWhile (fun x => x != '"')).length := by
            simp [List.drop_succ_cons]
          rw [show scanBody ('\\' :: a :: r') =
              ((a :: r').takeWhile (fun x => x != '"')).length + 1 from by
            simp [scanBody, ha]]
          rw [hstep, hdw]
          cases hh : ((a :: r').dropWhile (fun x => x != '"')).head? with
          | some b =>
            have hb' := head?_dropWhile_false hh
            simp at hb'
            left
            rw [hb']
          | none =>
            right
            simpa using hh
      · have h := ih r.length (by simp at hn; omega) r rfl
        rw [show scanBody (c :: r) = scanBody r + 1 from by simp [scanBody, hc, hb]]
        simpa using h
  exact key s.length s rfl

theorem scanBody_scanOk {s : Str}
    (hq : (s.drop (scanBody s)).head? = some '"') :
    scanOk (s.take (scanBody s)) = true := by
  have key : ∀ (n : Nat) (s : Str), s.length = n →
      (s.drop (scanBody s)).head? = some '"' →
      scanOk (s.take (scanBody s)) = true := by
    intro n
    induction n using Nat.strong_induction_on with
    | _ n ih =>
      intro s hn hq
      rcases s with _ | ⟨c, r⟩
      · simp at hq
      by_cases hc : c = '"'
      · subst hc
        simp [scanBody, scanOk]
      by_cases hb : c = '\\'
      · subst hb
        rcases r with _ | ⟨a, r'⟩
        · simp [scanBody] at hq
        by_cases ha : a = '"'
        · subst ha
          rw [show scanBody ('\\' :: '"' :: r') = scanBody r' + 2 from by
            simp [scanBody]] at hq ⊢
          simp only [List.drop_succ_cons] at hq
          have h := ih r'.length (by simp at hn; omega) r' rfl hq
          simp only [List.take_succ_cons]
          simpa [scanOk] using h
        · rw [show scanBody ('\\' :: a :: r') =
              ((a :: r').takeWhile (fun x => x != '"')).length + 1 from by
            simp [scanBody, ha]]
          simp only [List.take_succ_cons]
          rw [take_takeWhile_length]
          have htw : (a :: r').takeWhile (fun x => x != '"') =
              a :: r'.takeWhile (fun x => x != '"') := by
            simp [List.takeWhile_cons, ha]
          rw [htw]
          rw [show scanOk ('\\' :: a :: r'.takeWhile (fun x => x != '"')) =
              decide (((a :: r'.takeWhile (fun x => x != '"')).takeWhile
                  (fun x => x != '"')).length =
                (a :: r'.takeWhile (fun x => x != '"')).length) from by
            simp [scanOk, ha]]
          rw [show (a :: r'.takeWhile (fun x => x != '"')).takeWhile
                (fun x => x != '"') =
              a :: r'.takeWhile (fun x => x != '"') from by
            rw [List.takeWhile_cons]
            simp only [show (a != '"') = true from by simpa using ha]
            exact congrArg (a :: ·) (List.takeWhile_idem)]
          simp
      · rw [show scanBody (c :: r) = scanBody r + 1 from by
          simp [scanBody, hc, hb]] at hq ⊢
        simp only [List.drop_succ_cons] at hq
        have h := ih r.length (by simp at hn; omega) r rfl hq
        simp only [List.take_succ_cons]
        rw [show scanOk (c :: r.take (scanBody r)) = scanOk (r.take (scanBody r))
          from by simp [scanOk, hc, hb]]
        exact h
  exact key s.length s rfl hq

theorem scanOk_scanBody {c : Str} (h : scanOk c = true) (X : Str) :
    scanBody (c ++ '"' :: X) = c.length := by
  have key : ∀ (n : Nat) (c : Str), c.length = n → scanOk c = true →
      ∀ X, scanBody (c ++ '"' :: X) = c.length := by
    intro n
    induction n using Nat.strong_induction_on with
    | _ n ih =>
      intro c hn hok X
      rcases c with _ | ⟨c1, r⟩
      · simp [scanBody]
      by_cases hc : c1 = '"'
      · subst hc
        simp [scanOk] at hok
      by_cases hb : c1 = '\\'
      · subst hb
        rcases r with _ | ⟨a, r'⟩
        · simp [scanOk] at hok
        by_cases ha : a = '"'
        · subst ha
          rw [show scanOk ('\\' :: '"' :: r') = scanOk r' from by simp [scanOk]]
            at hok
          have h := ih r'.length (by simp at hn; omega) r' rfl hok X
          rw [show ('\\' :: '"' :: r') ++ '"' :: X =
            '\\' :: '"' :: (r' ++ '"' :: X) from by simp]
          rw [show scanBody ('\\' :: '"' :: (r' ++ '"' :: X)) =
            scanBody (r' ++ '"' :: X) + 2 from by simp [scanBody]]
          rw [h]
          simp
        · rw [show scanOk ('\\' :: a :: r') =
              decide (((a :: r').takeWhile (fun x => x != '"')).length =
                (a :: r').length) from by simp [scanOk, ha]] at hok
          simp only [decide_eq_true_eq] at hok
          have htw : (a :: r').takeWhile (fun x => x != '"') = a :: r' :=
            (List.takeWhile_prefix _).eq_of_length hok
          have hall : ∀ x ∈ a :: r', (x != '"') = true := by
            intro x hx
            rw [← htw] at hx
            exact List.mem_takeWhile_imp (p := fun x => x != '"') hx
          rw [show ('\\' :: a :: r') ++ '"' :: X =
            '\\' :: ((a :: r') ++ '"' :: X) from by simp]
          have ha2 : ((a :: r') ++ '"' :: X).head? = some a := by simp
          rw [show scanBody ('\\' :: ((a :: r') ++ '"' :: X)) =
              ((((a :: r') ++ '"' :: X)).takeWhile
                (fun x => x != '"')).length + 1 from by
            simp [scanBody, ha]]
          rw [takeWhile_all_append _ hall]
          rw [show ('"' :: X).takeWhile (fun x => x != '"') = [] from by
            simp [List.takeWhile_cons]]
          simp
      · rw [show scanOk (c1 :: r) = scanOk r from by simp [scanOk, hc, hb]] at hok
        have h := ih r.length (by simp at hn; omega) r rfl hok X
        rw [show (c1 :: r) ++ '"' :: X = c1 :: (r ++ '"' :: X) from by simp]
        rw [show scanBody (c1 :: (r ++ '"' :: X)) =
          scanBody (r ++ '"' :: X) + 1 from by simp [scanBody, hc, hb]]
        rw [h]
        simp
  exact key c.length c rfl h X

theorem pstringR_ok_inv {s v r : Str} (h : pstringR s = .ok v r) :
    ∃ c, v = '"' :: (c ++ ['"']) ∧ scanOk c = true ∧ s = v ++ r := by
  rw [pstringR] at h
  dsimp only [pstring] at h
  split at h
  · rename_i rest
    split at h
    · rename_i r2 heq
      rw [BRes.toPR] at h
      injection h with hv hr
      subst hv
      subst hr
      refine ⟨rest.take (scanBody rest), ?_, ?_, ?_⟩
      · have hget : rest[scanBody rest]? = some '"' := by
          rw [← List.head?_drop, heq]
          rfl
        rw [List.take_succ_cons, List.take_succ, hget]
        rfl
      · exact scanBody_scanOk (by rw [heq]; rfl)
      · have hdrop : rest.drop (scanBody rest + 1) = r2 := by
          rw [← List.drop_drop, heq]
          rfl
        have hsplit := List.take_append_drop (scanBody rest + 1) rest
        rw [hdrop] at hsplit
        calc '"' :: rest
            = '"' :: (rest.take (scanBody rest + 1) ++ r2) := by rw [hsplit]
          _ = ('"' :: rest).take (scanBody rest + 2) ++ r2 := by
              rw [List.take_succ_cons]
              simp
          _ = _ := by rfl
    · rename_i heq
      rw [BRes.toPR] at h
      cases h
  · rename_i heq
    rw [BRes.toPR] at h
    cases h

theorem pstringR_reparse {c : Str} (h : scanOk c = true) (X : Str) :
    pstringR ('"' :: (c ++ '"' :: X)) = .ok ('"' :: (c ++ ['"'])) X := by
  have hsb : scanBody (c ++ '"' :: X) = c.length := scanOk_scanBody h X
  have hdrop : (c ++ '"' :: X).drop (scanBody (c ++ '"' :: X)) = '"' :: X := by
    rw [hsb]
    exact List.drop_left c ('"' :: X)
  rw [pstringR]
  simp only [pstring]
  split
  · rename_i r2 heq
    rw [hdrop] at heq
    injection heq with _ hX
    subst hX
    rw [BRes.toPR]
    have htake : ('"' :: (c ++ '"' :: X)).take (scanBody (c ++ '"' :: X) + 2) =
        '"' :: (c ++ ['"']) := by
      rw [hsb, List.take_succ_cons]
      rw [show c.length + 1 = c.length + 1 from rfl]
      rw [show (c ++ '"' :: X).take (c.length + 1) = c ++ ('"' :: X).take 1 from
        List.take_append 1]
      rfl
    rw [htake]
  · rename_i heq
    exact absurd hdrop (heq X)

theorem pstringR_ne_incomplete (s : Str) : pstringR s ≠ .incomplete := by
  intro h
  rw [pstringR] at h
  dsimp only [pstring] at h
  split at h
  · split at h
    · rw [BRes.toPR] at h
      cases h
    · rw [BRes.toPR] at h
      cases h
  · rw [BRes.toPR] at h
    cases h

theorem pvalueR_ne_incomplete (s : Str) : pvalueR s ≠ .incomplete := by
  intro h
  rw [pvalueR, pvalue] at h
  by_cases hq : s.head? = some '"'
  · rw [if_pos hq] at h
    cases hps : pstring s with
    | ok v r hb => rw [hps, BRes.toPR] at h; cases h
    | err e => rw [hps, BRes.toPR] at h; cases h
    | incomplete =>
      have := pstringR_ne_incomplete s
      rw [pstringR, hps] at this
      exact this rfl
  · rw [if_neg hq] at h
    cases hss : stringish s with
    | ok v r hb => rw [hss, BRes.toPR] at h; cases h
    | err e => rw [hss, BRes.toPR] at h; cases h
    | incomplete =>
      rw [stringish] at hss
      split at hss
      · cases hss
      · cases hss

theorem pvalueR_ok_wf {s r : Str} {t : Node} (h : pvalueR s = .ok t r) :
    Wf t := by
  rw [pvalueR, pvalue] at h
  by_cases hq : s.head? = some '"'
  · rw [if_pos hq] at h
    cases hps : pstring s with
    | ok v' r' hb =>
      rw [hps, BRes.toPR] at h
      injection h with ht hr
      subst hr
      obtain ⟨c, hc1, hc2, _⟩ := pstringR_ok_inv
        (show pstringR s = .ok v' r' from by rw [pstringR, hps]; rfl)
      rw [← ht, Wf]
      exact Or.inr ⟨c, hc1, hc2⟩
    | err e => rw [hps, BRes.toPR] at h; cases h
    | incomplete => rw [hps, BRes.toPR] at h; cases h
  · rw [if_neg hq] at h
    cases hss : stringish s with
    | err e => rw [hss, BRes.toPR] at h; cases h
    | incomplete => rw [hss, BRes.toPR] at h; cases h
    | ok v' r' hb =>
      rw [hss, BRes.toPR] at h
      injection h with ht hr
      subst hr
      rw [stringish] at hss
      split at hss
      · cases hss
      rename_i hrun
      injection hss with hv _
      subst hv
      rw [← ht, Wf]
      refine Or.inl ⟨?_, ?_, ?_⟩
      · intro hempty
        rw [hempty] at hrun
        simp at hrun
      · obtain ⟨tl, htl⟩ := (List.takeWhile_prefix
          (fun c => !(rustWs c || isDelim c)) (l := s))
        have hne : s.takeWhile (fun c => !(rustWs c || isDelim c)) ≠ [] := by
          intro hempty
          rw [hempty] at hrun
          simp at hrun
        rw [show s.head? =
            (s.takeWhile (fun c => !(rustWs c || isDelim c))).head? from by
          conv_lhs => rw [← htl]
          exact List.head?_append_of_ne_nil _ hne] at hq
        exact hq
      · intro c hc
        have := List.mem_takeWhile_imp (p := fun c => !(rustWs c || isDelim c)) hc
        simp at this
        exact ⟨this.1, this.2⟩

/-! ## Soundness: no `Incomplete`, and parsed trees are well-formed -/

theorem parserSound :
    ∀ (n : Nat) (s : Str), s.length ≤ n →
      (pobjectR s ≠ .incomplete ∧ ∀ t r, pobjectR s = .ok t r → Wf t) ∧
      (parrayR s ≠ .incomplete ∧ ∀ t r, parrayR s = .ok t r → Wf t) ∧
      (pnodeR s ≠ .incomplete ∧ ∀ t r, pnodeR s = .ok t r → Wf t) ∧
      (pmembersLoopR s ≠ .incomplete ∧
        ∀ ms r, pmembersLoopR s = .ok ms r → WfMembers ms) ∧
      (pelemsLoopR s ≠ .incomplete ∧
        ∀ vs r, pelemsLoopR s = .ok vs r → WfList vs) ∧
      (pmembersR s ≠ .incomplete ∧
        ∀ ms r, pmembersR s = .ok ms r → WfMembers ms) ∧
      (pelemsR s ≠ .incomplete ∧ ∀ vs r, pelemsR s = .ok vs r → WfList vs) := by
  intro n
  induction n using Nat.strong_induction_on with
  | _ n IHn =>
    have IH : ∀ s : Str, s.length < n →
        (pobjectR s ≠ .incomplete ∧ ∀ t r, pobjectR s = .ok t r → Wf t) ∧
        (parrayR s ≠ .incomplete ∧ ∀ t r, parrayR s = .ok t r → Wf t) ∧
        (pnodeR s ≠ .incomplete ∧ ∀ t r, pnodeR s = .ok t r → Wf t) ∧
        (pmembersLoopR s ≠ .incomplete ∧
          ∀ ms r, pmembersLoopR s = .ok ms r → WfMembers ms) ∧
        (pelemsLoopR s ≠ .incomplete ∧
          ∀ vs r, pelemsLoopR s = .ok vs r → WfList vs) ∧
        (pmembersR s ≠ .incomplete ∧
          ∀ ms r, pmembersR s = .ok ms r → WfMembers ms) ∧
        (pelemsR s ≠ .incomplete ∧ ∀ vs r, pelemsR s = .ok vs r → WfList vs) :=
      fun s hs => IHn s.length hs s le_rfl
    have Hobj : ∀ s : Str, s.length ≤ n →
        pobjectR s ≠ .incomplete ∧ ∀ t r, pobjectR s = .ok t r → Wf t := by
      intro s hs
      have hkey : ∀ rest1 : Str, dropWs s = '{' :: rest1 →
          (dropWs rest1).length < n := by
        intro rest1 heq1
        have a1 : (dropWs s).length ≤ s.length := (List.dropWhile_sublist _).length_le
        have a2 : (dropWs rest1).length ≤ rest1.length :=
          (List.dropWhile_sublist _).length_le
        have b1 := congrArg List.length heq1
        simp at b1
        omega
      constructor
      · intro h
        rw [pobjectR, pobject.eq_def] at h
        split at h
        · rename_i rest1 heq1
          split at h
          · rename_i ms' r' hm' heq2
            split at h
            · rw [BRes.toPR] at h
              cases h
            · rw [BRes.toPR] at h
              cases h
          · rw [BRes.toPR] at h
            cases h
          · rename_i heq2
            refine (IH (dropWs rest1) (hkey rest1 heq1)).2.2.2.2.2.1.1 ?_
            rw [pmembersR, heq2]
            rfl
        · rw [BRes.toPR] at h
          cases h
      · intro t r h
        rw [pobjectR, pobject.eq_def] at h
        split at h
        · rename_i rest1 heq1
          split at h
          · rename_i ms' r' hm' heq2
            split at h
            · rename_i rest2 heq3
              rw [BRes.toPR] at h
              injection h with ht hr
              rw [← ht, Wf]
              exact (IH (dropWs rest1) (hkey rest1 heq1)).2.2.2.2.2.1.2 ms' r'
                (by rw [pmembersR, heq2]; rfl)
            · rw [BRes.toPR] at h
              cases h
          · rw [BRes.toPR] at h
            cases h
          · rw [BRes.toPR] at h
            cases h
        · rw [BRes.toPR] at h
          cases h
    have Harr : ∀ s : Str, s.length ≤ n →
        parrayR s ≠ .incomplete ∧ ∀ t r, parrayR s = .ok t r → Wf t := by
      intro s hs
      have hkey : ∀ rest1 : Str, dropWs s = '[' :: rest1 →
          (dropWs rest1).length < n := by
        intro rest1 heq1
        have a1 : (dropWs s).length ≤ s.length := (List.dropWhile_sublist _).length_le
        have a2 : (dropWs rest1).length ≤ rest1.length :=
          (List.dropWhile_sublist _).length_le
        have b1 := congrArg List.length heq1
        simp at b1
        omega
      constructor
      · intro h
        rw [parrayR, parray.eq_def] at h
        split at h
        · rename_i rest1 heq1
          split at h
          · rename_i vs' r' hm' heq2
            split at h
            · rw [BRes.toPR] at h
              cases h
            · rw [BRes.toPR] at h
              cases h
          · rw [BRes.toPR] at h
            cases h
          · rename_i heq2
            refine (IH (dropWs rest1) (hkey rest1 heq1)).2.2.2.2.2.2.1 ?_
            rw [pelemsR, heq2]
            rfl
        · rw [BRes.toPR] at h
          cases h
      · intro t r h
        rw [parrayR, parray.eq_def] at h
        split at h
        · rename_i rest1 heq1
          split at h
          · rename_i vs' r' hm' heq2
            split at h
            · rename_i rest2 heq3
              rw [BRes.toPR] at h
              injection h with ht hr
              rw [← ht, Wf]
              exact (IH (dropWs rest1) (hkey rest1 heq1)).2.2.2.2.2.2.2 vs' r'
                (by rw [pelemsR, heq2]; rfl)
            · rw [BRes.toPR] at h
              cases h
          · rw [BRes.toPR] at h
            cases h
          · rw [BRes.toPR] at h
            cases h
        · rw [BRes.toPR] at h
          cases h
    have Hnode : ∀ s : Str, s.length ≤ n →
        pnodeR s ≠ .incomplete ∧ ∀ t r, pnodeR s = .ok t r → Wf t := by
      intro s hs
      have hds : (dropWs s).length ≤ n :=
        le_trans (List.dropWhile_sublist _).length_le hs
      constructor
      · intro h
        rw [pnodeR_eq] at h
        split at h
        · cases h
        · exact (Hobj (dropWs s) hds).1 (by assumption)
        · split at h
          · cases h
          · exact (Harr (dropWs s) hds).1 (by assumption)
          · split at h
            · cases h
            · exact pvalueR_ne_incomplete (dropWs s) (by assumption)
            · cases h
      · intro t r h
        rw [pnodeR_eq] at h
        split at h
        · rename_i t' r' heq
          injection h with ht hr
          rw [← ht]
          exact (Hobj (dropWs s) hds).2 t' r' heq
        · cases h
        · split at h
          · rename_i t' r' heq
            injection h with ht hr
            rw [← ht]
            exact (Harr (dropWs s) hds).2 t' r' heq
          · cases h
          · split at h
            · rename_i t' r' heq
              injection h with ht hr
              rw [← ht]
              exact pvalueR_ok_wf heq
            · cases h
            · cases h
    have HeLoop : ∀ s : Str, s.length ≤ n →
        pelemsLoopR s ≠ .incomplete ∧
          ∀ vs r, pelemsLoopR s = .ok vs r → WfList vs := by
      intro s hs
      have hkey : ∀ rest1 : Str, dropWs s = ',' :: rest1 →
          (dropWs rest1).length < n := by
        intro rest1 heq1
        have a1 : (dropWs s).length ≤ s.length := (List.dropWhile_sublist _).length_le
        have a2 : (dropWs rest1).length ≤ rest1.length :=
          (List.dropWhile_sublist _).length_le
        have b1 := congrArg List.length heq1
        simp at b1
        omega
      constructor
      · intro h
        rw [pelemsLoopR, pelemsLoop.eq_def] at h
        split at h
        · rename_i rest1 heq1
          split at h
          · rw [BRes.toPR] at h
            cases h
          · split at h
            · rename_i v' r' hv' heq2
              split at h
              · rw [BRes.toPR] at h
                cases h
              · rw [BRes.toPR] at h
                cases h
              · rename_i heq3
                have hr' : r'.length < n := by
                  have := hkey rest1 heq1
                  omega
                refine (IH r' hr').2.2.2.2.1.1 ?_
                rw [pelemsLoopR, heq3]
                rfl
            · rw [BRes.toPR] at h
              cases h
            · rename_i heq2
              refine (IH (dropWs rest1) (hkey rest1 heq1)).2.2.1.1 ?_
              rw [pnodeR, heq2]
              rfl
        · rw [BRes.toPR] at h
          cases h
      · intro vs r h
        rw [pelemsLoopR, pelemsLoop.eq_def] at h
        split at h
        · rename_i rest1 heq1
          split at h
          · rw [BRes.toPR] at h
            cases h
          · split at h
            · rename_i v' r' hv' heq2
              split at h
              · rename_i vs' rest' hrest' heq3
                rw [BRes.toPR] at h
                injection h with hvs hr
                have hr' : r'.length < n := by
                  have := hkey rest1 heq1
                  omega
                rw [← hvs, WfList]
                refine ⟨?_, ?_⟩
                · exact (IH (dropWs rest1) (hkey rest1 heq1)).2.2.1.2 v' r'
                    (by rw [pnodeR, heq2]; rfl)
                · exact (IH r' hr').2.2.2.2.1.2 vs' rest'
                    (by rw [pelemsLoopR, heq3]; rfl)
              · rw [BRes.toPR] at h
                cases h
              · rw [BRes.toPR] at h
                cases h
            · rw [BRes.toPR] at h
              injection h with hvs hr
              rw [← hvs, WfList]
              trivial
            · rw [BRes.toPR] at h
              cases h
        · rw [BRes.toPR] at h
          injection h with hvs hr
          rw [← hvs, WfList]
          trivial
    have HmLoop : ∀ s : Str, s.length ≤ n →
        pmembersLoopR s ≠ .incomplete ∧
          ∀ ms r, pmembersLoopR s = .ok ms r → WfMembers ms := by
      intro s hs
      have hkey : ∀ rest1 : Str, dropWs s = ',' :: rest1 →
          (dropWs rest1).length < n := by
        intro rest1 heq1
        have a1 : (dropWs s).length ≤ s.length := (List.dropWhile_sublist _).length_le
        have a2 : (dropWs rest1).length ≤ rest1.length :=
          (List.dropWhile_sublist _).length_le
        have b1 := congrArg List.length heq1
        simp at b1
        omega
      constructor
      · intro h
        rw [pmembersLoopR, pmembersLoop.eq_def] at h
        split at h
        · rename_i rest1 heq1
          split at h
          · rw [BRes.toPR] at h
            cases h
          · split at h
            · rename_i k' r1' hk' heq2
              split at h
              · rename_i rest2 heq3
                split at h
                · rename_i v' r4' hv' heq4
                  split at h
                  · rw [BRes.toPR] at h
                    cases h
                  · rw [BRes.toPR] at h
                    cases h
                  · rename_i heq5
                    have hb2 := congrArg List.length heq3
                    have a3 : (dropWs r1').length ≤ r1'.length :=
                      (List.dropWhile_sublist _).length_le
                    have a4 : (dropWs rest2).length ≤ rest2.length :=
                      (List.dropWhile_sublist _).length_le
                    simp at hb2
                    have hr4 : r4'.length < n := by
                      have h5 := hkey rest1 heq1
                      have h6 := hk'
                      omega
                    refine (IH r4' hr4).2.2.2.1.1 ?_
                    rw [pmembersLoopR, heq5]
                    rfl
                · rw [BRes.toPR] at h
                  cases h
                · rename_i heq4
                  have hb2 := congrArg List.length heq3
                  have a3 : (dropWs r1').length ≤ r1'.length :=
                    (List.dropWhile_sublist _).length_le
                  have a4 : (dropWs rest2).length ≤ rest2.length :=
                    (List.dropWhile_sublist _).length_le
                  simp at hb2
                  have hr2 : (dropWs rest2).length < n := by
                    have h5 := hkey rest1 heq1
                    have h6 := hk'
                    omega
                  refine (IH (dropWs rest2) hr2).2.2.1.1 ?_
                  rw [pnodeR, heq4]
                  rfl
              · rw [BRes.toPR] at h
                cases h
            · rw [BRes.toPR] at h
              cases h
            · exact pstringR_ne_incomplete (dropWs rest1)
                (by rw [pstringR]; rename_i heq2; rw [heq2]; rfl)
        · rw [BRes.toPR] at h
          cases h
      · intro ms r h
        rw [pmembersLoopR, pmembersLoop.eq_def] at h
        split at h
        · rename_i rest1 heq1
          split at h
          · rw [BRes.toPR] at h
            cases h
          · split at h
            · rename_i k' r1' hk' heq2
              split at h
              · rename_i rest2 heq3
                split at h
                · rename_i v' r4' hv' heq4
                  split at h
                  · rename_i ms' rest' hrest' heq5
                    rw [BRes.toPR] at h
                    injection h with hms hr
                    have hb2 := congrArg List.length heq3
                    have a3 : (dropWs r1').length ≤ r1'.length :=
                      (List.dropWhile_sublist _).length_le
                    have a4 : (dropWs rest2).length ≤ rest2.length :=
                      (List.dropWhile_sublist _).length_le
                    simp at hb2
                    have hr4 : r4'.length < n := by
                      have h5 := hkey rest1 heq1
                      have h6 := hk'
                      omega
                    have hr2 : (dropWs rest2).length < n := by
                      have h5 := hkey rest1 heq1
                      have h6 := hk'
                      omega
                    rw [← hms, WfMembers]
                    obtain ⟨c, hc1, hc2, _⟩ := pstringR_ok_inv
                      (show pstringR (dropWs rest1) = .ok k' r1' from by
                        rw [pstringR, heq2]; rfl)
                    refine ⟨⟨c, hc1, hc2⟩, ?_, ?_⟩
                    · exact (IH (dropWs rest2) hr2).2.2.1.2 v' r4'
                        (by rw [pnodeR, heq4]; rfl)
                    · exact (IH r4' hr4).2.2.2.1.2 ms' rest'
                        (by rw [pmembersLoopR, heq5]; rfl)
                  · rw [BRes.toPR] at h
                    cases h
                  · rw [BRes.toPR] at h
                    cases h
                · rw [BRes.toPR] at h
                  injection h with hms hr
                  rw [← hms, WfMembers]
                  trivial
                · rw [BRes.toPR] at h
                  cases h
              · rw [BRes.toPR] at h
                injection h with hms hr
                rw [← hms, WfMembers]
                trivial
            · rw [BRes.toPR] at h
              injection h with hms hr
              rw [← hms, WfMembers]
              trivial
            · rw [BRes.toPR] at h
              cases h
        · rw [BRes.toPR] at h
          injection h with hms hr
          rw [← hms, WfMembers]
          trivial
    have Hmem : ∀ s : Str, s.length ≤ n →
        pmembersR s ≠ .incomplete ∧
          ∀ ms r, pmembersR s = .ok ms r → WfMembers ms := by
      intro s hs
      constructor
      · intro h
        rw [pmembersR, pmembers.eq_def] at h
        split at h
        · rename_i k' r1' hk' heq2
          split at h
          · rename_i rest2 heq3
            split at h
            · rename_i v' r4' hv' heq4
              split at h
              · rw [BRes.toPR] at h
                cases h
              · rw [BRes.toPR] at h
                cases h
              · rename_i heq5
                have hb2 := congrArg List.length heq3
                have a3 : (dropWs r1').length ≤ r1'.length :=
                  (List.dropWhile_sublist _).length_le
                have a4 : (dropWs rest2).length ≤ rest2.length :=
                  (List.dropWhile_sublist _).length_le
                simp at hb2
                obtain ⟨c, hc1, hc2, hc3⟩ := pstringR_ok_inv
                  (show pstringR s = .ok k' r1' from by rw [pstringR, heq2]; rfl)
                have hklen : 0 < k'.length := by
                  rw [hc1]
                  simp
                have hslen := congrArg List.length hc3
                simp at hslen
                have hr4 : r4'.length < n := by omega
                refine (IH r4' hr4).2.2.2.1.1 ?_
                rw [pmembersLoopR, heq5]
                rfl
            · rw [BRes.toPR] at h
              cases h
            · rename_i heq4
              have hb2 := congrArg List.length heq3
              have a3 : (dropWs r1').length ≤ r1'.length :=
                (List.dropWhile_sublist _).length_le
              have a4 : (dropWs rest2).length ≤ rest2.length :=
                (List.dropWhile_sublist _).length_le
              simp at hb2
              obtain ⟨c, hc1, hc2, hc3⟩ := pstringR_ok_inv
                (show pstringR s = .ok k' r1' from by rw [pstringR, heq2]; rfl)
              have hklen : 0 < k'.length := by
                rw [hc1]
                simp
              have hslen := congrArg List.length hc3
              simp at hslen
              have hr2 : (dropWs rest2).length < n := by omega
              refine (IH (dropWs rest2) hr2).2.2.1.1 ?_
              rw [pnodeR, heq4]
              rfl
          · rw [BRes.toPR] at h
            cases h
        · rw [BRes.toPR] at h
          cases h
        · exact pstringR_ne_incomplete s
            (by rw [pstringR]; rename_i heq2; rw [heq2]; rfl)
      · intro ms r h
        rw [pmembersR, pmembers.eq_def] at h
        split at h
        · rename_i k' r1' hk' heq2
          split at h
          · rename_i rest2 heq3
            split at h
            · rename_i v' r4' hv' heq4
              split at h
              · rename_i ms' rest' hrest' heq5
                rw [BRes.toPR] at h
                injection h with hms hr
                have hb2 := congrArg List.length heq3
                have a3 : (dropWs r1').length ≤ r1'.length :=
                  (List.dropWhile_sublist _).length_le
                have a4 : (dropWs rest2).length ≤ rest2.length :=
                  (List.dropWhile_sublist _).length_le
                simp at hb2
                obtain ⟨c, hc1, hc2, hc3⟩ := pstringR_ok_inv
                  (show pstringR s = .ok k' r1' from by rw [pstringR, heq2]; rfl)
                have hklen : 0 < k'.length := by
                  rw [hc1]
                  simp
                have hslen := congrArg List.length hc3
                simp at hslen
                have hr4 : r4'.length < n := by omega
                have hr2 : (dropWs rest2).length < n := by omega
                rw [← hms, WfMembers]
                refine ⟨⟨c, hc1, hc2⟩, ?_, ?_⟩
                · exact (IH (dropWs rest2) hr2).2.2.1.2 v' r4'
                    (by rw [pnodeR, heq4]; rfl)
                · exact (IH r4' hr4).2.2.2.1.2 ms' rest'
                    (by rw [pmembersLoopR, heq5]; rfl)
              · rw [BRes.toPR] at h
                cases h
              · rw [BRes.toPR] at h
                cases h
            · rw [BRes.toPR] at h
              injection h with hms hr
              rw [← hms, WfMembers]
              trivial
            · rw [BRes.toPR] at h
              cases h
          · rw [BRes.toPR] at h
            injection h with hms hr
            rw [← hms, WfMembers]
            trivial
        · rw [BRes.toPR] at h
          injection h with hms hr
          rw [← hms, WfMembers]
          trivial
        · rw [BRes.toPR] at h
          cases h
    have Helems : ∀ s : Str, s.length ≤ n →
        pelemsR s ≠ .incomplete ∧ ∀ vs r, pelemsR s = .ok vs r → WfList vs := by
      intro s hs
      constructor
      · intro h
        rw [pelemsR, pelems.eq_def] at h
        split at h
        · rename_i v' r' hv' heq2
          split at h
          · rw [BRes.toPR] at h
            cases h
          · rw [BRes.toPR] at h
            cases h
          · rename_i heq3
            refine (HeLoop r' (le_trans hv' hs)).1 ?_
            rw [pelemsLoopR, heq3]
            rfl
        · rw [BRes.toPR] at h
          cases h
        · rename_i heq2
          refine (Hnode s hs).1 ?_
          rw [pnodeR, heq2]
          rfl
      · intro vs r h
        rw [pelemsR, pelems.eq_def] at h
        split at h
        · rename_i v' r' hv' heq2
          split at h
          · rename_i vs' rest' hrest' heq3
            rw [BRes.toPR] at h
            injection h with hvs hr
            rw [← hvs, WfList]
            refine ⟨?_, ?_⟩
            · exact (Hnode s hs).2 v' r' (by rw [pnodeR, heq2]; rfl)
            · exact (HeLoop r' (le_trans hv' hs)).2 vs' rest'
                (by rw [pelemsLoopR, heq3]; rfl)
          · rw [BRes.toPR] at h
            cases h
          · rw [BRes.toPR] at h
            cases h
        · rw [BRes.toPR] at h
          injection h with hvs hr
          rw [← hvs, WfList]
          trivial
        · rw [BRes.toPR] at h
          cases h
    exact fun s hs => ⟨Hobj s hs, Harr s hs, Hnode s hs, HmLoop s hs,
      HeLoop s hs, Hmem s hs, Helems s hs⟩

/-! ## Round-trip: formatter output re-parses to the same tree -/

theorem dropWhile_all_append {p : Char → Bool} {l : Str} (m : Str)
    (h : ∀ x ∈ l, p x = true) : (l ++ m).dropWhile p = m.dropWhile p := by
  induction l with
  | nil => rfl
  | cons c r ih =>
    rw [List.cons_append, List.dropWhile]
    simp only [h c (by simp)]
    exact ih fun x hx => h x (by simp [hx])

theorem dropWs_cons_neg {c : Char} (s : Str) (h : rustWs c = false) :
    dropWs (c :: s) = c :: s := by
  rw [dropWs, List.dropWhile, h]

theorem dropWs_cons_pos {c : Char} (s : Str) (h : rustWs c = true) :
    dropWs (c :: s) = dropWs s := by
  rw [dropWs, dropWs, List.dropWhile, h]

theorem dropWs_idem (s : Str) : dropWs (dropWs s) = dropWs s := by
  cases hd : dropWs s with
  | nil => rfl
  | cons c r =>
    have hc : rustWs c = false :=
      head?_dropWhile_false (l := s) (by rw [← dropWs, hd]; rfl)
    exact dropWs_cons_neg r hc

theorem mem_nTimes {n : Nat} {ind : Str} {c : Char} (h : c ∈ nTimes n ind) :
    c ∈ ind := by
  induction n with
  | zero => cases h
  | succ k ih =>
    rw [nTimes] at h
    rcases List.mem_append.mp h with h | h
    · exact h
    · exact ih h

theorem dropWs_pad (n : Nat) (s : Str) :
    dropWs (nTimes n [' ', ' '] ++ s) = dropWs s := by
  rw [dropWs, dropWs]
  refine dropWhile_all_append s fun x hx => ?_
  have hx2 : x ∈ [' ', ' '] := mem_nTimes hx
  simp at hx2
  rw [hx2]
  decide

theorem dropWs_pad_if (b : Bool) (n : Nat) (s : Str) :
    dropWs ((if b then nTimes n [' ', ' '] else []) ++ s) = dropWs s := by
  cases b
  · rw [if_neg (by simp), List.nil_append]
  · rw [if_pos rfl]
    exact dropWs_pad n s

theorem head_ne {a b : Char} (w : Str) (h : ¬ a = b) :
    (a :: w).head? ≠ some b := by
  intro hc
  injection hc with hc
  exact h hc

theorem pnodeR_congr {s t : Str} (h : dropWs s = dropWs t) :
    pnodeR s = pnodeR t := by
  rw [pnodeR_eq, pnodeR_eq, h]

theorem dropWs_quoted {k : Str} (hq : goodQuoted k) (z : Str) :
    dropWs (k ++ z) = k ++ z := by
  obtain ⟨c, hk, -⟩ := hq
  rw [hk, List.cons_append]
  exact dropWs_cons_neg _ (by decide)

theorem dropWs_bare {v : Str} (hb : goodBare v) (z : Str) :
    dropWs (v ++ z) = v ++ z := by
  obtain ⟨hne, hq, hall⟩ := hb
  cases v with
  | nil => exact absurd rfl hne
  | cons a w =>
    rw [List.cons_append]
    exact dropWs_cons_neg _ (hall a (by simp)).1

theorem dropWs_value {v : Str} (hv : goodValue v) (z : Str) :
    dropWs (v ++ z) = v ++ z := by
  rcases hv with hb | hq
  · exact dropWs_bare hb z
  · exact dropWs_quoted hq z

theorem goodValue_head {v : Str} (hv : goodValue v) (z : Str) :
    ∃ a, (v ++ z).head? = some a ∧ rustWs a = false ∧
      ¬ a = '{' ∧ ¬ a = '[' := by
  rcases hv with ⟨hne, hq, hall⟩ | ⟨c, hc1, hc2⟩
  · cases v with
    | nil => exact absurd rfl hne
    | cons a w =>
      refine ⟨a, rfl, (hall a (by simp)).1, ?_, ?_⟩
      · intro he
        have hd := (hall a (by simp)).2
        rw [he] at hd
        exact absurd hd (by decide)
      · intro he
        have hd := (hall a (by simp)).2
        rw [he] at hd
        exact absurd hd (by decide)
  · rw [hc1]
    exact ⟨'"', rfl, by decide, by decide, by decide⟩

theorem pstringR_err_notQuote {s : Str} (h : s.head? ≠ some '"') :
    pstringR s = .err [(s, .tagK)] := by
  rw [pstringR]
  cases s with
  | nil => rfl
  | cons c r =>
    have hc : ¬ c = '"' := fun he => h (by rw [he]; rfl)
    simp [pstring, hc, BRes.toPR]

theorem bare_append_stop {v z : Str}
    (hv : ∀ c ∈ v, rustWs c = false ∧ isDelim c = false)
    (hz : stopsAfter z) :
    (v ++ z).takeWhile (fun c => !(rustWs c || isDelim c)) = v := by
  rw [takeWhile_all_append z (fun x hx => by simp [(hv x hx).1, (hv x hx).2])]
  cases z with
  | nil => simp
  | cons c w =>
    rcases hz with h | h
    · simp [List.takeWhile_cons, h]
    · simp [List.takeWhile_cons, h]

theorem pvalueR_bare_reparse {v z : Str} (hv : goodBare v)
    (hz : stopsAfter z) : pvalueR (v ++ z) = .ok (.Value v) z := by
  obtain ⟨hne, hq, hall⟩ := hv
  have htw : (v ++ z).takeWhile (fun c => !(rustWs c || isDelim c)) = v :=
    bare_append_stop hall hz
  have h0 : (v ++ z).head? ≠ some '"' := by
    cases v with
    | nil => exact absurd rfl hne
    | cons a w => exact fun hc => hq (by rw [← hc]; rfl)
  have h2 := pvalueR_bare_ok h0 (by rw [htw]; exact hne)
  rw [htw, List.drop_left] at h2
  exact h2

theorem pvalueR_quoted_reparse {c : Str} (h : scanOk c = true) (z : Str) :
    pvalueR (('"' :: (c ++ ['"'])) ++ z) =
      .ok (.Value ('"' :: (c ++ ['"']))) z := by
  have he : ('"' :: (c ++ ['"'])) ++ z = '"' :: (c ++ '"' :: z) := by simp
  rw [he]
  exact pvalueR_quoted_ok rfl (by rw [← he]; rw [he]; exact pstringR_reparse h z)

theorem pvalueR_good_reparse {v z : Str} (hv : goodValue v)
    (hz : stopsAfter z) : pvalueR (v ++ z) = .ok (.Value v) z := by
  rcases hv with hb | ⟨c, hc1, hc2⟩
  · exact pvalueR_bare_reparse hb hz
  · rw [hc1]
    exact pvalueR_quoted_reparse hc2 z

theorem stopsAfter_ws {c : Char} (w : Str) (h : rustWs c = true) :
    stopsAfter (c :: w) := by
  show rustWs c = true ∨ isDelim c = true
  exact Or.inl h

theorem stopsAfter_delim {c : Char} (w : Str) (h : isDelim c = true) :
    stopsAfter (c :: w) := by
  show rustWs c = true ∨ isDelim c = true
  exact Or.inr h

theorem pnodeR_value_assemble {v z : Str} (hv : goodValue v)
    (hz : stopsAfter z) (level : Nat) (ini : Bool) :
    pnodeR (((if ini then nTimes level [' ', ' '] else []) ++ v) ++ z) =
      .ok (.Value v) (dropWs z) := by
  have hcg : pnodeR (((if ini then nTimes level [' ', ' '] else []) ++ v) ++ z) =
      pnodeR (v ++ z) := by
    apply pnodeR_congr
    rw [List.append_assoc]
    exact dropWs_pad_if ini level (v ++ z)
  rw [hcg]
  obtain ⟨a, hh, hcw, hcb, hck⟩ := goodValue_head hv z
  have hdv : dropWs (v ++ z) = v ++ z := dropWs_value hv z
  have h1 := pobjectR_err_notBrace (s := v ++ z) (by rw [hdv, hh]; simp [hcb])
  have h2 := parrayR_err_notBracket (s := v ++ z) (by rw [hdv, hh]; simp [hck])
  have h3 : pvalueR (dropWs (v ++ z)) = .ok (.Value v) z := by
    rw [hdv]
    exact pvalueR_good_reparse hv hz
  exact pnodeR_val_ok (by rw [hdv]; exact h1) (by rw [hdv]; exact h2) h3

theorem pnodeR_err_delim {c : Char} (z : Str) (h0 : rustWs c = false)
    (h1 : ¬ c = '{') (h2 : ¬ c = '[') (h3 : ¬ c = '"')
    (h4 : isDelim c = true) :
    pnodeR (c :: z) = .err ([(c :: z, .tw1)] ++ [(c :: z, .altE)]) := by
  have hdc : dropWs (c :: z) = c :: z := dropWs_cons_neg _ h0
  have ho : pobjectR (c :: z) = .err [(dropWs (c :: z), .tagK)] :=
    pobjectR_err_notBrace (by rw [hdc]; exact head_ne _ h1)
  have ha : parrayR (c :: z) = .err [(dropWs (c :: z), .tagK)] :=
    parrayR_err_notBracket (by rw [hdc]; exact head_ne _ h2)
  have hv : pvalueR (c :: z) = .err [(c :: z, .tw1)] :=
    pvalueR_bare_err (head_ne _ h3)
      (by rw [List.takeWhile_cons, if_neg (by simp [h4])])
  have hfin := pnodeR_err (s := c :: z)
    (by rw [hdc]; exact ho) (by rw [hdc]; exact ha) (by rw [hdc]; exact hv)
  rw [hdc] at hfin
  exact hfin

theorem pnodeR_emptyArr_assemble (level : Nat) (ini : Bool) (z : Str) :
    pnodeR (((if ini then nTimes level [' ', ' '] else []) ++ ['[', ']']) ++ z) =
      .ok (.Array []) (dropWs z) := by
  have hcg : pnodeR (((if ini then nTimes level [' ', ' '] else []) ++
      ['[', ']']) ++ z) = pnodeR ('[' :: ']' :: z) := by
    apply pnodeR_congr
    rw [List.append_assoc]
    exact dropWs_pad_if ini level _
  rw [hcg]
  have hd1 : dropWs ('[' :: ']' :: z) = '[' :: ']' :: z :=
    dropWs_cons_neg _ (by decide)
  have h1 := pobjectR_err_notBrace (s := '[' :: ']' :: z)
    (by rw [hd1]; exact head_ne _ (by decide))
  have hz : pnodeR (']' :: z) = .err ([(']' :: z, .tw1)] ++ [(']' :: z, .altE)]) :=
    pnodeR_err_delim z (by decide) (by decide) (by decide) (by decide) (by decide)
  have he : pelemsR (dropWs (']' :: z)) = .ok [] (']' :: z) := by
    rw [dropWs_cons_neg _ (by decide)]
    exact pelemsR_empty hz
  have h2 : parrayR ('[' :: ']' :: z) = .ok (.Array []) (dropWs z) :=
    parrayR_ok hd1 he (dropWs_cons_neg _ (by decide))
  have hfin := pnodeR_arr_ok (s := '[' :: ']' :: z)
    (by rw [hd1]; exact h1) (by rw [hd1]; exact h2)
  rw [dropWs_idem] at hfin
  exact hfin

theorem pnodeR_emptyObj_assemble (level : Nat) (ini : Bool) (z : Str) :
    pnodeR (((if ini then nTimes level [' ', ' '] else []) ++ ['{', '}']) ++ z) =
      .ok (.Object []) (dropWs z) := by
  have hcg : pnodeR (((if ini then nTimes level [' ', ' '] else []) ++
      ['{', '}']) ++ z) = pnodeR ('{' :: '}' :: z) := by
    apply pnodeR_congr
    rw [List.append_assoc]
    exact dropWs_pad_if ini level _
  rw [hcg]
  have hd1 : dropWs ('{' :: '}' :: z) = '{' :: '}' :: z :=
    dropWs_cons_neg _ (by decide)
  have hm : pmembersR (dropWs ('}' :: z)) = .ok [] ('}' :: z) := by
    rw [dropWs_cons_neg _ (by decide)]
    exact pmembersR_empty_str (pstringR_err_notQuote (head_ne _ (by decide)))
  have h2 : pobjectR ('{' :: '}' :: z) = .ok (.Object []) (dropWs z) :=
    pobjectR_ok hd1 hm (dropWs_cons_neg _ (by decide))
  have hfin := pnodeR_obj_ok (s := '{' :: '}' :: z) (by rw [hd1]; exact h2)
  rw [dropWs_idem] at hfin
  exact hfin

theorem pnodeR_arr_assemble {B z : Str} {vs : List Node} (level : Nat)
    (ini : Bool)
    (hel : pelemsR (dropWs (B ++ ('\n' :: (nTimes level [' ', ' '] ++
        (']' :: z))))) =
      .ok vs (dropWs ('\n' :: (nTimes level [' ', ' '] ++ (']' :: z))))) :
    pnodeR (((if ini then nTimes level [' ', ' '] else []) ++
      ('[' :: '\n' :: (B ++ '\n' :: (nTimes level [' ', ' '] ++ [']'])))) ++ z) =
      .ok (.Array vs) (dropWs z) := by
  have hcg : pnodeR (((if ini then nTimes level [' ', ' '] else []) ++
      ('[' :: '\n' :: (B ++ '\n' :: (nTimes level [' ', ' '] ++ [']'])))) ++ z) =
      pnodeR ('[' :: '\n' :: (B ++ ('\n' :: (nTimes level [' ', ' '] ++
        (']' :: z))))) := by
    apply pnodeR_congr
    rw [List.append_assoc, dropWs_pad_if]
    rw [show ('[' :: '\n' :: (B ++ '\n' :: (nTimes level [' ', ' '] ++ [']']))) ++ z =
      '[' :: '\n' :: (B ++ ('\n' :: (nTimes level [' ', ' '] ++ (']' :: z))))
      from by simp]
  rw [hcg]
  have hdY : dropWs ('\n' :: (nTimes level [' ', ' '] ++ (']' :: z))) =
      ']' :: z := by
    rw [dropWs_cons_pos _ (by decide), dropWs_pad]
    exact dropWs_cons_neg _ (by decide)
  have hdS : dropWs ('[' :: '\n' :: (B ++ ('\n' :: (nTimes level [' ', ' '] ++
      (']' :: z))))) =
      '[' :: '\n' :: (B ++ ('\n' :: (nTimes level [' ', ' '] ++ (']' :: z)))) :=
    dropWs_cons_neg _ (by decide)
  have h1 := pobjectR_err_notBrace
    (s := '[' :: '\n' :: (B ++ ('\n' :: (nTimes level [' ', ' '] ++ (']' :: z)))))
    (by rw [hdS]; exact head_ne _ (by decide))
  have h2 : parrayR ('[' :: '\n' :: (B ++ ('\n' :: (nTimes level [' ', ' '] ++
      (']' :: z))))) = .ok (.Array vs) (dropWs z) := by
    refine parrayR_ok (r := dropWs ('\n' :: (nTimes level [' ', ' '] ++
      (']' :: z)))) hdS ?_ ?_
    · rw [dropWs_cons_pos _ (by decide)]
      exact hel
    · rw [dropWs_idem, hdY]
  have hfin := pnodeR_arr_ok
    (s := '[' :: '\n' :: (B ++ ('\n' :: (nTimes level [' ', ' '] ++ (']' :: z)))))
    (by rw [hdS]; exact h1) (by rw [hdS]; exact h2)
  rw [dropWs_idem] at hfin
  exact hfin

theorem pnodeR_obj_assemble {B z : Str} {ms : List (Str × Node)} (level : Nat)
    (ini : Bool)
    (hms : pmembersR (dropWs (B ++ ('\n' :: (nTimes level [' ', ' '] ++
        ('}' :: z))))) =
      .ok ms (dropWs ('\n' :: (nTimes level [' ', ' '] ++ ('}' :: z))))) :
    pnodeR (((if ini then nTimes level [' ', ' '] else []) ++
      ('{' :: '\n' :: (B ++ '\n' :: (nTimes level [' ', ' '] ++ ['}'])))) ++ z) =
      .ok (.Object ms) (dropWs z) := by
  have hcg : pnodeR (((if ini then nTimes level [' ', ' '] else []) ++
      ('{' :: '\n' :: (B ++ '\n' :: (nTimes level [' ', ' '] ++ ['}'])))) ++ z) =
      pnodeR ('{' :: '\n' :: (B ++ ('\n' :: (nTimes level [' ', ' '] ++
        ('}' :: z))))) := by
    apply pnodeR_congr
    rw [List.append_assoc, dropWs_pad_if]
    rw [show ('{' :: '\n' :: (B ++ '\n' :: (nTimes level [' ', ' '] ++ ['}']))) ++ z =
      '{' :: '\n' :: (B ++ ('\n' :: (nTimes level [' ', ' '] ++ ('}' :: z))))
      from by simp]
  rw [hcg]
  have hdY : dropWs ('\n' :: (nTimes level [' ', ' '] ++ ('}' :: z))) =
      '}' :: z := by
    rw [dropWs_cons_pos _ (by decide), dropWs_pad]
    exact dropWs_cons_neg _ (by decide)
  have hdS : dropWs ('{' :: '\n' :: (B ++ ('\n' :: (nTimes level [' ', ' '] ++
      ('}' :: z))))) =
      '{' :: '\n' :: (B ++ ('\n' :: (nTimes level [' ', ' '] ++ ('}' :: z)))) :=
    dropWs_cons_neg _ (by decide)
  have h2 : pobjectR ('{' :: '\n' :: (B ++ ('\n' :: (nTimes level [' ', ' '] ++
      ('}' :: z))))) = .ok (.Object ms) (dropWs z) := by
    refine pobjectR_ok (r := dropWs ('\n' :: (nTimes level [' ', ' '] ++
      ('}' :: z)))) hdS ?_ ?_
    · rw [dropWs_cons_pos _ (by decide)]
      exact hms
    · rw [dropWs_idem, hdY]
  have hfin := pnodeR_obj_ok
    (s := '{' :: '\n' :: (B ++ ('\n' :: (nTimes level [' ', ' '] ++ ('}' :: z)))))
    (by rw [hdS]; exact h2)
  rw [dropWs_idem] at hfin
  exact hfin

theorem pelemsR_assemble_one {F Y : Str} {x : Node}
    (hx : pnodeR (F ++ Y) = .ok x (dropWs Y))
    (hY : (dropWs Y).head? ≠ some ',') :
    pelemsR (dropWs (F ++ Y)) = .ok [x] (dropWs Y) := by
  have h1 : pnodeR (dropWs (F ++ Y)) = .ok x (dropWs Y) := by
    rw [pnodeR_congr (dropWs_idem _)]
    exact hx
  exact pelemsR_ok h1 (pelemsLoopR_done (by rw [dropWs_idem]; exact hY))

theorem pelemsR_assemble_cons {F B Y : Str} {x : Node} {ys : List Node}
    (hx : pnodeR (F ++ (',' :: '\n' :: (B ++ Y))) =
      .ok x (dropWs (',' :: '\n' :: (B ++ Y))))
    (hl : pelemsLoopR (',' :: '\n' :: (B ++ Y)) = .ok ys (dropWs Y)) :
    pelemsR (dropWs ((F ++ ',' :: '\n' :: B) ++ Y)) =
      .ok (x :: ys) (dropWs Y) := by
  rw [show (F ++ ',' :: '\n' :: B) ++ Y = F ++ (',' :: '\n' :: (B ++ Y))
    from by simp]
  have hd : dropWs (',' :: '\n' :: (B ++ Y)) = ',' :: '\n' :: (B ++ Y) :=
    dropWs_cons_neg _ (by decide)
  have h1 : pnodeR (dropWs (F ++ (',' :: '\n' :: (B ++ Y)))) =
      .ok x (',' :: '\n' :: (B ++ Y)) := by
    rw [pnodeR_congr (dropWs_idem _), hx, hd]
  exact pelemsR_ok h1 hl

theorem pelemsLoop_assemble_one {F Y : Str} {x : Node}
    (hx : pnodeR (F ++ Y) = .ok x (dropWs Y))
    (hY : (dropWs Y).head? ≠ some ',') :
    pelemsLoopR (',' :: '\n' :: (F ++ Y)) = .ok [x] (dropWs Y) := by
  refine pelemsLoopR_step (r := dropWs Y) (dropWs_cons_neg _ (by decide)) ?_ ?_
  · have hcg : pnodeR (dropWs ('\n' :: (F ++ Y))) = pnodeR (F ++ Y) :=
      pnodeR_congr (by rw [dropWs_idem, dropWs_cons_pos _ (by decide)])
    rw [hcg, hx]
  · exact pelemsLoopR_done (by rw [dropWs_idem]; exact hY)

theorem pelemsLoop_assemble_cons {F B Y : Str} {x : Node} {ys : List Node}
    (hx : pnodeR (F ++ (',' :: '\n' :: (B ++ Y))) =
      .ok x (dropWs (',' :: '\n' :: (B ++ Y))))
    (hl : pelemsLoopR (',' :: '\n' :: (B ++ Y)) = .ok ys (dropWs Y)) :
    pelemsLoopR (',' :: '\n' :: ((F ++ ',' :: '\n' :: B) ++ Y)) =
      .ok (x :: ys) (dropWs Y) := by
  rw [show (F ++ ',' :: '\n' :: B) ++ Y = F ++ (',' :: '\n' :: (B ++ Y))
    from by simp]
  refine pelemsLoopR_step (r := ',' :: '\n' :: (B ++ Y))
    (dropWs_cons_neg _ (by decide)) ?_ ?_
  · have hcg : pnodeR (dropWs ('\n' :: (F ++ (',' :: '\n' :: (B ++ Y))))) =
        pnodeR (F ++ (',' :: '\n' :: (B ++ Y))) :=
      pnodeR_congr (by rw [dropWs_idem, dropWs_cons_pos _ (by decide)])
    rw [hcg, hx, dropWs_cons_neg _ (by decide)]
  · exact hl

theorem pmembersR_assemble {k V T rest : Str} {v : Node}
    {ms : List (Str × Node)} {c : Str}
    (hk : k = '"' :: (c ++ ['"'])) (hc : scanOk c = true)
    (hv : pnodeR (V ++ T) = .ok v (dropWs T))
    (hl : pmembersLoopR (dropWs T) = .ok ms rest) :
    pmembersR (k ++ (':' :: ' ' :: (V ++ T))) = .ok ((k, v) :: ms) rest := by
  refine @pmembersR_ok_first _ _ (':' :: ' ' :: (V ++ T)) (' ' :: (V ++ T))
    (dropWs T) _ _ _ ?_ ?_ ?_ ?_
  · rw [hk]
    rw [show ('"' :: (c ++ ['"'])) ++ (':' :: ' ' :: (V ++ T)) =
      '"' :: (c ++ '"' :: (':' :: ' ' :: (V ++ T))) from by simp]
    exact pstringR_reparse hc _
  · rw [dropWs_cons_neg _ (by decide)]
  · have hcg : pnodeR (dropWs (' ' :: (V ++ T))) = pnodeR (V ++ T) :=
      pnodeR_congr (by rw [dropWs_idem, dropWs_cons_pos _ (by decide)])
    rw [hcg, hv]
  · exact hl

theorem pmembersLoop_assemble {W k V T rest : Str} {v : Node}
    {ms : List (Str × Node)} {c : Str}
    (hW : dropWs W = k ++ (':' :: ' ' :: (V ++ T)))
    (hk : k = '"' :: (c ++ ['"'])) (hc : scanOk c = true)
    (hv : pnodeR (V ++ T) = .ok v (dropWs T))
    (hl : pmembersLoopR (dropWs T) = .ok ms rest) :
    pmembersLoopR (',' :: W) = .ok ((k, v) :: ms) rest := by
  refine @pmembersLoopR_step _ W _ (':' :: ' ' :: (V ++ T)) (' ' :: (V ++ T))
    (dropWs T) _ _ _ (dropWs_cons_neg _ (by decide)) ?_ ?_ ?_ ?_
  · rw [hW, hk]
    rw [show ('"' :: (c ++ ['"'])) ++ (':' :: ' ' :: (V ++ T)) =
      '"' :: (c ++ '"' :: (':' :: ' ' :: (V ++ T))) from by simp]
    exact pstringR_reparse hc _
  · rw [dropWs_cons_neg _ (by decide)]
  · have hcg : pnodeR (dropWs (' ' :: (V ++ T))) = pnodeR (V ++ T) :=
      pnodeR_congr (by rw [dropWs_idem, dropWs_cons_pos _ (by decide)])
    rw [hcg, hv]
  · exact hl

mutual

/-- Formatter output re-parses to the same tree, leaving the (whitespace-
or delimiter-led) suffix after trailing-whitespace stripping. -/
theorem format_reparse (t : Node) (hw : Wf t) (level : Nat) (ini : Bool)
    (z : Str) (hz : stopsAfter z) :
    pnodeR (t.format [' ', ' '] level ini ++ z) = .ok t (dropWs z) := by
  cases t with
  | Value v =>
    rw [Wf] at hw
    rw [Node.format]
    exact pnodeR_value_assemble hw hz level ini
  | Array xs =>
    rw [Wf] at hw
    cases xs with
    | nil =>
      rw [Node.format]
      exact pnodeR_emptyArr_assemble level ini z
    | cons x xs =>
      rw [Node.format]
      exact pnodeR_arr_assemble level ini
        (fmtElems_reparse x xs hw (level + 1) _ (stopsAfter_ws _ (by decide))
          (by rw [dropWs_cons_pos _ (by decide), dropWs_pad,
                dropWs_cons_neg _ (by decide)]
              exact head_ne _ (by decide)))
  | Object ms =>
    rw [Wf] at hw
    cases ms with
    | nil =>
      rw [Node.format]
      exact pnodeR_emptyObj_assemble level ini z
    | cons m ms =>
      rw [Node.format]
      exact pnodeR_obj_assemble level ini
        (fmtMembers_reparse m ms hw (level + 1) _ (stopsAfter_ws _ (by decide))
          (by rw [dropWs_cons_pos _ (by decide), dropWs_pad,
                dropWs_cons_neg _ (by decide)]
              exact head_ne _ (by decide)))
termination_by sizeOf t

/-- Non-empty array bodies re-parse through `separated_list0`. -/
theorem fmtElems_reparse (x : Node) (xs : List Node) (hw : WfList (x :: xs))
    (level : Nat) (Y : Str) (hY : stopsAfter Y)
    (hc : (dropWs Y).head? ≠ some ',') :
    pelemsR (dropWs (fmtElems [' ', ' '] level (x :: xs) ++ Y)) =
      .ok (x :: xs) (dropWs Y) := by
  rw [WfList] at hw
  cases xs with
  | nil =>
    rw [fmtElems]
    exact pelemsR_assemble_one (format_reparse x hw.1 level true Y hY) hc
  | cons y ys =>
    rw [fmtElems]
    exact pelemsR_assemble_cons
      (format_reparse x hw.1 level true _ (stopsAfter_delim _ (by decide)))
      (fmtElemsLoop_reparse y ys hw.2 level Y hY hc)
termination_by sizeOf x + sizeOf xs

/-- The `fold_many0` separator loop over the remaining array elements. -/
theorem fmtElemsLoop_reparse (x : Node) (xs : List Node)
    (hw : WfList (x :: xs)) (level : Nat) (Y : Str) (hY : stopsAfter Y)
    (hc : (dropWs Y).head? ≠ some ',') :
    pelemsLoopR (',' :: '\n' :: (fmtElems [' ', ' '] level (x :: xs) ++ Y)) =
      .ok (x :: xs) (dropWs Y) := by
  rw [WfList] at hw
  cases xs with
  | nil =>
    rw [fmtElems]
    exact pelemsLoop_assemble_one (format_reparse x hw.1 level true Y hY) hc
  | cons y ys =>
    rw [fmtElems]
    exact pelemsLoop_assemble_cons
      (format_reparse x hw.1 level true _ (stopsAfter_delim _ (by decide)))
      (fmtElemsLoop_reparse y ys hw.2 level Y hY hc)
termination_by sizeOf x + sizeOf xs

/-- Non-empty object bodies re-parse through the member list parser. -/
theorem fmtMembers_reparse (m : Str × Node) (ms : List (Str × Node))
    (hw : WfMembers (m :: ms)) (level : Nat) (Y : Str) (hY : stopsAfter Y)
    (hc : (dropWs Y).head? ≠ some ',') :
    pmembersR (dropWs (fmtMembers [' ', ' '] level (m :: ms) ++ Y)) =
      .ok (m :: ms) (dropWs Y) := by
  rw [WfMembers] at hw
  obtain ⟨⟨q, hk, hsc⟩, hwv, hwms⟩ := hw
  cases ms with
  | nil =>
    rw [fmtMembers]
    rw [show (nTimes level [' ', ' '] ++
        (m.1 ++ ':' :: ' ' :: m.2.format [' ', ' '] level false)) ++ Y =
      nTimes level [' ', ' '] ++
        (m.1 ++ (':' :: ' ' :: (m.2.format [' ', ' '] level false ++ Y)))
      from by simp]
    rw [show dropWs (nTimes level [' ', ' '] ++
        (m.1 ++ (':' :: ' ' :: (m.2.format [' ', ' '] level false ++ Y)))) =
      m.1 ++ (':' :: ' ' :: (m.2.format [' ', ' '] level false ++ Y))
      from by rw [dropWs_pad]; exact dropWs_quoted ⟨q, hk, hsc⟩ _]
    have hfin := pmembersR_assemble hk hsc
      (format_reparse m.2 hwv level false Y hY)
      (pmembersLoopR_done (by rw [dropWs_idem]; exact hc))
    simpa using hfin
  | cons p ps =>
    rw [fmtMembers]
    rw [show ((nTimes level [' ', ' '] ++
        (m.1 ++ ':' :: ' ' :: m.2.format [' ', ' '] level false)) ++
        ',' :: '\n' :: fmtMembers [' ', ' '] level (p :: ps)) ++ Y =
      nTimes level [' ', ' '] ++
        (m.1 ++ (':' :: ' ' :: (m.2.format [' ', ' '] level false ++
          (',' :: '\n' :: (fmtMembers [' ', ' '] level (p :: ps) ++ Y)))))
      from by simp]
    rw [show dropWs (nTimes level [' ', ' '] ++
        (m.1 ++ (':' :: ' ' :: (m.2.format [' ', ' '] level false ++
          (',' :: '\n' :: (fmtMembers [' ', ' '] level (p :: ps) ++ Y)))))) =
      m.1 ++ (':' :: ' ' :: (m.2.format [' ', ' '] level false ++
        (',' :: '\n' :: (fmtMembers [' ', ' '] level (p :: ps) ++ Y))))
      from by rw [dropWs_pad]; exact dropWs_quoted ⟨q, hk, hsc⟩ _]
    have hfin := pmembersR_assemble hk hsc
      (format_reparse m.2 hwv level false
        (',' :: '\n' :: (fmtMembers [' ', ' '] level (p :: ps) ++ Y))
        (stopsAfter_delim _ (by decide)))
      (by rw [dropWs_cons_neg _ (by decide)]
          exact fmtMembersLoop_reparse p ps hwms level Y hY hc)
    simpa using hfin
termination_by sizeOf m + sizeOf ms
decreasing_by
  all_goals cases m
  all_goals subst_vars
  all_goals simp_wf
  all_goals omega

/-- The separator loop over the remaining object members. -/
theorem fmtMembersLoop_reparse (m : Str × Node) (ms : List (Str × Node))
    (hw : WfMembers (m :: ms)) (level : Nat) (Y : Str) (hY : stopsAfter Y)
    (hc : (dropWs Y).head? ≠ some ',') :
    pmembersLoopR (',' :: '\n' ::
        (fmtMembers [' ', ' '] level (m :: ms) ++ Y)) =
      .ok (m :: ms) (dropWs Y) := by
  rw [WfMembers] at hw
  obtain ⟨⟨q, hk, hsc⟩, hwv, hwms⟩ := hw
  cases ms with
  | nil =>
    rw [fmtMembers]
    have hW : dropWs ('\n' :: ((nTimes level [' ', ' '] ++
        (m.1 ++ ':' :: ' ' :: m.2.format [' ', ' '] level false)) ++ Y)) =
        m.1 ++ (':' :: ' ' :: (m.2.format [' ', ' '] level false ++ Y)) := by
      rw [dropWs_cons_pos _ (by decide)]
      rw [show (nTimes level [' ', ' '] ++
          (m.1 ++ ':' :: ' ' :: m.2.format [' ', ' '] level false)) ++ Y =
        nTimes level [' ', ' '] ++
          (m.1 ++ (':' :: ' ' :: (m.2.format [' ', ' '] level false ++ Y)))
        from by simp]
      rw [dropWs_pad]
      exact dropWs_quoted ⟨q, hk, hsc⟩ _
    have hfin := pmembersLoop_assemble hW hk hsc
      (format_reparse m.2 hwv level false Y hY)
      (pmembersLoopR_done (by rw [dropWs_idem]; exact hc))
    simpa using hfin
  | cons p ps =>
    rw [fmtMembers]
    have hW : dropWs ('\n' :: (((nTimes level [' ', ' '] ++
        (m.1 ++ ':' :: ' ' :: m.2.format [' ', ' '] level false)) ++
        ',' :: '\n' :: fmtMembers [' ', ' '] level (p :: ps)) ++ Y)) =
        m.1 ++ (':' :: ' ' :: (m.2.format [' ', ' '] level false ++
          (',' :: '\n' :: (fmtMembers [' ', ' '] level (p :: ps) ++ Y)))) := by
      rw [dropWs_cons_pos _ (by decide)]
      rw [show ((nTimes level [' ', ' '] ++
          (m.1 ++ ':' :: ' ' :: m.2.format [' ', ' '] level false)) ++
          ',' :: '\n' :: fmtMembers [' ', ' '] level (p :: ps)) ++ Y =
        nTimes level [' ', ' '] ++
          (m.1 ++ (':' :: ' ' :: (m.2.format [' ', ' '] level false ++
            (',' :: '\n' :: (fmtMembers [' ', ' '] level (p :: ps) ++ Y)))))
        from by simp]
      rw [dropWs_pad]
      exact dropWs_quoted ⟨q, hk, hsc⟩ _
    have hfin := pmembersLoop_assemble hW hk hsc
      (format_reparse m.2 hwv level false
        (',' :: '\n' :: (fmtMembers [' ', ' '] level (p :: ps) ++ Y))
        (stopsAfter_delim _ (by decide)))
      (by rw [dropWs_cons_neg _ (by decide)]
          exact fmtMembersLoop_reparse p ps hwms level Y hY hc)
    simpa using hfin
termination_by sizeOf m + sizeOf ms
decreasing_by
  all_goals cases m
  all_goals subst_vars
  all_goals simp_wf
  all_goals omega

end

/-! ## `parse` wrappers and the malformed-input scenario -/

theorem parse_of_pnodeR_ok {s r : Str} {t : Node} (h : pnodeR s = .ok t r) :
    parse s = some (.ok t) := by
  rw [parse]
  cases hp : pnode s with
  | ok u q hb =>
    rw [pnodeR, hp, BRes.toPR] at h
    injection h with h1 h2
    rw [h1]
  | err e =>
    rw [pnodeR, hp, BRes.toPR] at h
    cases h
  | incomplete =>
    rw [pnodeR, hp, BRes.toPR] at h
    cases h

theorem parse_of_pnodeR_err {s : Str} {e : VErr} (h : pnodeR s = .err e) :
    parse s = some (.error e) := by
  rw [parse]
  cases hp : pnode s with
  | ok u q hb =>
    rw [pnodeR, hp, BRes.toPR] at h
    cases h
  | err f =>
    rw [pnodeR, hp, BRes.toPR] at h
    injection h with h1
    rw [h1]
  | incomplete =>
    rw [pnodeR, hp, BRes.toPR] at h
    cases h

theorem pnodeR_of_parse_ok {s : Str} {t : Node} (h : parse s = some (.ok t)) :
    ∃ r, pnodeR s = .ok t r := by
  rw [parse] at h
  cases hp : pnode s with
  | ok u q hb =>
    rw [hp] at h
    injection h with h1
    injection h1 with h2
    exact ⟨q, by rw [pnodeR, hp, BRes.toPR, h2]⟩
  | err e =>
    rw [hp] at h
    injection h with h1
    cases h1
  | incomplete =>
    rw [hp] at h
    cases h

theorem parse_never_none (s : Str) : parse s ≠ none := by
  intro h
  rw [parse] at h
  split at h
  · cases h
  · cases h
  · rename_i heq
    exact (parserSound s.length s le_rfl).2.2.1.1 (by rw [pnodeR, heq]; rfl)

theorem scenE_members :
    pmembersR ['"', 'a', '"', ':', '}'] = .ok [] ['"', 'a', '"', ':', '}'] := by
  refine pmembersR_empty_node (k := ['"', 'a', '"'])
    (e := [(['}'], .tw1)] ++ [(['}'], .altE)]) rfl rfl ?_
  rw [show dropWs ['}'] = '}' :: ([] : Str) from rfl]
  exact pnodeR_err_delim [] (by decide) (by decide) (by decide) (by decide)
    (by decide)

theorem scenE_object :
    pobjectR ['{', '"', 'a', '"', ':', '}'] =
      .err [(['"', 'a', '"', ':', '}'], .tagK)] := by
  have h2 : pmembersR (dropWs ['"', 'a', '"', ':', '}']) =
      .ok [] ['"', 'a', '"', ':', '}'] := by
    rw [show dropWs ['"', 'a', '"', ':', '}'] = ['"', 'a', '"', ':', '}']
      from rfl]
    exact scenE_members
  exact pobjectR_err_close
    (show dropWs ['{', '"', 'a', '"', ':', '}'] =
      '{' :: ['"', 'a', '"', ':', '}'] from rfl) h2 (by decide)

theorem scenE_parse :
    parse ['{', '"', 'a', '"', ':', '}'] =
      some (.error [(['{', '"', 'a', '"', ':', '}'], .tw1),
        (['{', '"', 'a', '"', ':', '}'], .altE)]) := by
  apply parse_of_pnodeR_err
  have h1 : pobjectR (dropWs ['{', '"', 'a', '"', ':', '}']) =
      .err [(['"', 'a', '"', ':', '}'], .tagK)] := scenE_object
  have h2 : parrayR (dropWs ['{', '"', 'a', '"', ':', '}']) =
      .err [(dropWs ['{', '"', 'a', '"', ':', '}'], .tagK)] :=
    parrayR_err_notBracket (by decide)
  have h3 : pvalueR (dropWs ['{', '"', 'a', '"', ':', '}']) =
      .err [(['{', '"', 'a', '"', ':', '}'], .tw1)] := rfl
  have := pnodeR_err h1 h2 h3
  exact this

/-! ## The remaining claims -/

/-- C1: for every input `s` that `parse` accepts with tree `t`,
re-parsing the formatted output `t.to_string` succeeds and returns a tree
equal to `t`: formatting only moves whitespace, never the tree's
content. -/
theorem c1_round_trip (s : Str) (t : Node) (h : parse s = some (.ok t)) :
    parse t.to_string = some (.ok t) := by
  obtain ⟨r, hr⟩ := pnodeR_of_parse_ok h
  have hwf : Wf t := (parserSound s.length s le_rfl).2.2.1.2 t r hr
  have hf := format_reparse t hwf 0 false [] trivial
  rw [List.append_nil] at hf
  exact parse_of_pnodeR_ok hf

/-- Witness for C1: `{}` parses to the empty object, and re-parsing its
formatted text returns the same tree. -/
theorem c1_witness :
    parse (Node.Object []).to_string = some (.ok (.Object [])) :=
  c1_round_trip ['{', '}'] (.Object [])
    (parse_of_pnodeR_ok (pnodeR_emptyObj_assemble 0 false []))

/-- C3 is false as stated: in `"\x\""` the final quote is immediately
preceded by a backslash, yet it terminates the string — the scanner's
third `alt` branch (`take_while1(|x| x != '"')`) consumes the backslash
inside the run `x\`, so the backslash never pairs with the quote.  The
stored payload is `"\x\"` and the unconsumed remainder `"`. -/
theorem c3_counterexample :
    pstringR ['"', '\\', 'x', '\\', '"', '"'] =
      .ok ['"', '\\', 'x', '\\', '"'] ['"'] := rfl

/-- C3 (amended): every accepted string literal is the quote-delimited
source substring copied verbatim (`s = v ++ r`, `v = '"' ++ c ++ '"'`)
whose content `c` is *scan-stable* (`scanOk`): the `fold_many0` of the
three branches consumes exactly `c` and stops at the closing quote.  A
`\"` pair is non-terminating exactly when its backslash is not already
consumed by a preceding `take_while1(|x| x != '"')` run; conversely every
scan-stable content re-parses against any continuation. -/
theorem c3_string_scan :
    (∀ s v r : Str, pstringR s = .ok v r →
      ∃ c, v = '"' :: (c ++ ['"']) ∧ scanOk c = true ∧ s = v ++ r) ∧
    (∀ c z : Str, scanOk c = true →
      pstringR ('"' :: (c ++ '"' :: z)) = .ok ('"' :: (c ++ ['"'])) z) :=
  ⟨fun _ _ _ h => pstringR_ok_inv h, fun _ z h => pstringR_reparse h z⟩

/-- Witness for C3 (amended) at `"a"` (inversion) and `"\""` (an escaped
quote inside the literal does not terminate it). -/
theorem c3_witness :
    (∃ c, (['"', 'a', '"'] : Str) = '"' :: (c ++ ['"']) ∧ scanOk c = true ∧
      (['"', 'a', '"'] : Str) = ['"', 'a', '"'] ++ []) ∧
    pstringR ['"', '\\', '"', '"'] = .ok ['"', '\\', '"', '"'] [] :=
  ⟨c3_string_scan.1 ['"', 'a', '"'] ['"', 'a', '"'] [] rfl,
   c3_string_scan.2 ['\\', '"'] [] rfl⟩

/-- C7 is wrong about the reported position: on `{"a":}` the recorded
`VerboseError` entries are the `take_while1` failure of the `value()`
branch and the final `Alt` entry, both holding the *whole* input (the
`ws(alt(...))` level), so `convert_error` reports offset 0 twice — not
the position of the missing value (offset 5). -/
theorem c7_counterexample :
    parseErrOffsets ['{', '"', 'a', '"', ':', '}'] = some [0, 0] ∧
    ∀ o ∈ [0, 0], o ≠ 5 := by
  constructor
  · rw [parseErrOffsets, scenE_parse]
    rfl
  · intro o ho
    simp at ho
    rw [ho]
    decide

/-- C7 (amended): `parse` never panics — the nom `complete` combinators
never yield `Incomplete`, so every input produces `some` result, and the
malformed `{"a":}` produces an error value (never a tree) whose reported
offsets are `[0, 0]` (the alternation failure over the whole input), not
the position of the missing value. -/
theorem c7_parse_never_panics :
    (∀ s : Str, parse s ≠ none) ∧
    (∃ e, parse ['{', '"', 'a', '"', ':', '}'] = some (.error e) ∧
      errOffsets ['{', '"', 'a', '"', ':', '}'] e = [0, 0]) :=
  ⟨parse_never_none, ⟨_, scenE_parse, rfl⟩⟩

/-- Witness for C7 on the empty input: `parse` returns a value. -/
theorem c7_witness : parse [] ≠ none := c7_parse_never_panics.1 []

/-- C9: whenever the node parser accepts a prefix of the input and leaves
a remainder, `parse` succeeds with that node, silently discarding the
remainder; in particular `{}garbage` parses to the empty object. -/
theorem c9_trailing_discarded :
    (∀ (s r : Str) (t : Node), pnodeR s = .ok t r → parse s = some (.ok t)) ∧
    parse ['{', '}', 'g', 'a', 'r', 'b', 'a', 'g', 'e'] =
      some (.ok (.Object [])) :=
  ⟨fun _ _ _ h => parse_of_pnodeR_ok h,
   parse_of_pnodeR_ok
     (pnodeR_emptyObj_assemble 0 false ['g', 'a', 'r', 'b', 'a', 'g', 'e'])⟩

/-- Witness for C9: the empty array followed by nothing. -/
theorem c9_witness : parse ['[', ']'] = some (.ok (.Array [])) :=
  c9_trailing_discarded.1 ['[', ']'] [] (.Array [])
    (pnodeR_emptyArr_assemble 0 false [])

end Jsonsrt